import Mathlib

/-!
# Verification of the `fragmentacion` UDP router core

Shallow embedding of `src/utilities.py` and the receive loop of
`src/router.py`.

Python strings are modelled as lists of Unicode code points (`PyStr`),
Python `bytes` as lists of byte values (`ByteSeq`); `str.encode()` /
`bytes.decode()` are modelled by an executable UTF-8 encoder and strict
decoder. Python `int` is Lean `Int`. Fallible operations return
`Except PyExn` / `Option`; a loop whose state provably stops changing is
reported through an explicit `nonterm` marker.
-/

/-- A Python `str`: a sequence of Unicode code points. -/
abbrev PyStr := List Nat

/-- A Python `bytes` value: a sequence of byte values. -/
abbrev ByteSeq := List Nat

/-- The Python exceptions the embedded code can raise. -/
inductive PyExn where
  | indexError
  | valueError
  | unicodeDecodeError
  | typeError
deriving DecidableEq, Repr

instance {ε α : Type} [DecidableEq ε] [DecidableEq α] : DecidableEq (Except ε α) :=
  fun a b =>
    match a, b with
    | .ok x, .ok y =>
      if h : x = y then .isTrue (by rw [h]) else .isFalse (by intro hc; cases hc; exact h rfl)
    | .error x, .error y =>
      if h : x = y then .isTrue (by rw [h]) else .isFalse (by intro hc; cases hc; exact h rfl)
    | .ok _, .error _ => .isFalse (by intro hc; cases hc)
    | .error _, .ok _ => .isFalse (by intro hc; cases hc)

/-- Convert a Lean string literal to the `PyStr` model (for concrete inputs). -/
def str2py (s : String) : PyStr := s.data.map Char.toNat

/-- UTF-8 encoding of one code point (the byte sequence `chr(c).encode()`
would produce; total on `Nat`, matching the arithmetic pattern on all
inputs the theorems use). -/
def encChar (c : Nat) : ByteSeq :=
  if c < 0x80 then [c]
  else if c < 0x800 then [0xC0 + c / 0x40, 0x80 + c % 0x40]
  else if c < 0x10000 then
    [0xE0 + c / 0x1000, 0x80 + (c / 0x40) % 0x40, 0x80 + c % 0x40]
  else
    [0xF0 + c / 0x40000, 0x80 + (c / 0x1000) % 0x40,
     0x80 + (c / 0x40) % 0x40, 0x80 + c % 0x40]

/-- Model of Python `s.encode()`: UTF-8 encoding of a string. -/
def pyEncode (s : PyStr) : ByteSeq := (s.map encChar).flatten

/-- A code point Python can hold and UTF-8 round-trips: below `0x110000`
and not a surrogate. -/
def validChar (c : Nat) : Prop := c < 0x110000 ∧ ¬(0xD800 ≤ c ∧ c < 0xE000)

instance (c : Nat) : Decidable (validChar c) := by
  unfold validChar; infer_instance

/-- Continuation of a two-byte UTF-8 sequence with lead byte `b`. -/
def decodeTwo (b : Nat) : ByteSeq → Option (Nat × ByteSeq)
  | b1 :: bs1 =>
    if b1 / 0x40 = 2 then some ((b - 0xC0) * 0x40 + (b1 - 0x80), bs1)
    else none
  | [] => none

/-- Continuation of a three-byte UTF-8 sequence with lead byte `b`
(overlong and surrogate code points rejected). -/
def decodeThree (b : Nat) : ByteSeq → Option (Nat × ByteSeq)
  | b1 :: b2 :: bs2 =>
    if b1 / 0x40 = 2 ∧ b2 / 0x40 = 2 then
      if (b - 0xE0) * 0x1000 + (b1 - 0x80) * 0x40 + (b2 - 0x80) < 0x800 ∨
         (0xD800 ≤ (b - 0xE0) * 0x1000 + (b1 - 0x80) * 0x40 + (b2 - 0x80) ∧
          (b - 0xE0) * 0x1000 + (b1 - 0x80) * 0x40 + (b2 - 0x80) < 0xE000) then
        none
      else some ((b - 0xE0) * 0x1000 + (b1 - 0x80) * 0x40 + (b2 - 0x80), bs2)
    else none
  | _ => none

/-- Continuation of a four-byte UTF-8 sequence with lead byte `b`
(overlong and beyond-range code points rejected). -/
def decodeFour (b : Nat) : ByteSeq → Option (Nat × ByteSeq)
  | b1 :: b2 :: b3 :: bs3 =>
    if b1 / 0x40 = 2 ∧ b2 / 0x40 = 2 ∧ b3 / 0x40 = 2 then
      if (b - 0xF0) * 0x40000 + (b1 - 0x80) * 0x1000 + (b2 - 0x80) * 0x40 +
           (b3 - 0x80) < 0x10000 ∨
         0x10FFFF < (b - 0xF0) * 0x40000 + (b1 - 0x80) * 0x1000 +
           (b2 - 0x80) * 0x40 + (b3 - 0x80) then
        none
      else
        some ((b - 0xF0) * 0x40000 + (b1 - 0x80) * 0x1000 +
              (b2 - 0x80) * 0x40 + (b3 - 0x80), bs3)
    else none
  | _ => none

/-- Strict UTF-8 decoding of one code point: returns the decoded point and
the remaining bytes, or `none` on malformed input (continuation-byte,
overlong, surrogate and range checks as CPython performs them). -/
def decodeOne : ByteSeq → Option (Nat × ByteSeq)
  | [] => none
  | b :: bs =>
    if b < 0x80 then some (b, bs)
    else if b < 0xC2 then none
    else if b < 0xE0 then decodeTwo b bs
    else if b < 0xF0 then decodeThree b bs
    else if b < 0xF5 then decodeFour b bs
    else none

/-- Fuel-indexed strict UTF-8 decode loop (one unit of fuel per decoded
code point; `bs.length + 1` fuel always suffices because every step
consumes at least one byte). -/
def pyDecodeAux : Nat → ByteSeq → Option PyStr
  | 0, _ => none
  | _ + 1, [] => some []
  | fuel + 1, b :: bs =>
    match decodeOne (b :: bs) with
    | none => none
    | some (c, rest) => (pyDecodeAux fuel rest).map (c :: ·)

/-- Model of Python `bs.decode()`: strict UTF-8 decoding, `none` meaning
`UnicodeDecodeError`. -/
def pyDecode (bs : ByteSeq) : Option PyStr := pyDecodeAux (bs.length + 1) bs

/-- Decimal digits (as code points, most significant first) of a natural
number, empty for `0`; fuel-indexed, `n` fuel suffices for `n ≥ 1`. -/
def natChars : Nat → Nat → List Nat
  | 0, _ => []
  | fuel + 1, n => if n = 0 then [] else natChars fuel (n / 10) ++ [48 + n % 10]

/-- Model of Python `str(n)` for a natural number. -/
def natToStr (n : Nat) : PyStr := if n = 0 then [48] else natChars n n

/-- Model of Python `str(i)` for an `int` (possible leading minus sign,
code point 45). -/
def py_str_of_int (i : Int) : PyStr :=
  if i < 0 then 45 :: natToStr (-i).toNat else natToStr i.toNat

/-- Parse a nonempty all-digit string into a natural number. -/
def parse_nat_digits (s : PyStr) : Option Nat :=
  if s = [] then none
  else if s.all (fun c => 48 ≤ c && c ≤ 57) then
    some (s.foldl (fun a c => a * 10 + (c - 48)) 0)
  else none

/-- Model of Python `int(s)`: an optional sign followed by decimal digits.
(CPython additionally strips whitespace and allows digit-group
underscores; no string the embedded code builds or the theorems quantify
over uses those forms.) -/
def py_int_of_string : PyStr → Option Int
  | [] => none
  | c :: rest =>
    if c = 45 then (parse_nat_digits rest).map (fun n => -(n : Int))
    else if c = 43 then (parse_nat_digits rest).map (fun n => (n : Int))
    else (parse_nat_digits (c :: rest)).map (fun n => (n : Int))

/-- Model of Python `s.split(sep)` for a one-character separator, with no
split limit, specialised to the comma (code point 44) as in
`parse_ip_header`. -/
def pySplit : PyStr → List PyStr
  | [] => [[]]
  | c :: cs =>
    if c = 44 then [] :: pySplit cs
    else
      match pySplit cs with
      | [] => [[c]]
      | p :: ps => (c :: p) :: ps

/-- Model of the Python slice `l[start:stop]` for `start ≥ 0` and an
arbitrary (possibly negative) `stop`, as used on `msg.encode()` in
`fragment_ip_packet`. -/
def pySlice (l : ByteSeq) (start : Nat) (stop : Int) : ByteSeq :=
  let stopIdx : Nat :=
    if stop < 0 then ((l.length : Int) + stop).toNat
    else min stop.toNat l.length
  (l.take stopIdx).drop start

/-- The `IPHeader` dataclass of `src/utilities.py`. -/
structure IPHeader where
  ip_address : PyStr
  port : Int
  ttl : Int
  id : PyStr
  offset : Int
  size : PyStr
  flag : Bool
  msg : PyStr
deriving DecidableEq, Repr

/-- `IPHeader.to_string`: the comma-join
`','.join([ip, str(port), str(ttl), id, str(offset), size, flag01, msg])`. -/
def IPHeader.to_string (h : IPHeader) : PyStr :=
  h.ip_address ++ 44 :: py_str_of_int h.port ++ 44 :: py_str_of_int h.ttl ++
  44 :: h.id ++ 44 :: py_str_of_int h.offset ++ 44 :: h.size ++
  44 :: (if h.flag then [49] else [48]) ++ 44 :: h.msg

/-- Look up index `i` of the split list, raising `IndexError` past the end,
as Python list indexing does. -/
def py_index (l : List PyStr) (i : Nat) : Except PyExn PyStr :=
  match l.get? i with
  | some x => .ok x
  | none => .error .indexError

/-- Run `int(s)`, raising `ValueError` on failure. -/
def py_int_exn (s : PyStr) : Except PyExn Int :=
  match py_int_of_string s with
  | some n => .ok n
  | none => .error .valueError

/-- `parse_ip_header` from `src/utilities.py`: split the wire text on every
comma (no split limit), read fields 0-7 in source order (list indexing may
raise `IndexError`, `int()` may raise `ValueError`); the `size` field is
kept verbatim and the flag is `parts[6] == '1'` (no validation of either).
Any content after the 7th comma beyond `parts[7]` is silently dropped. -/
def parse_ip_header (s : PyStr) : Except PyExn IPHeader :=
  let parts := pySplit s
  match py_index parts 0 with
  | .error e => .error e
  | .ok ip_address =>
  match py_index parts 1 with
  | .error e => .error e
  | .ok portS =>
  match py_int_exn portS with
  | .error e => .error e
  | .ok port =>
  match py_index parts 2 with
  | .error e => .error e
  | .ok ttlS =>
  match py_int_exn ttlS with
  | .error e => .error e
  | .ok ttl =>
  match py_index parts 3 with
  | .error e => .error e
  | .ok id =>
  match py_index parts 4 with
  | .error e => .error e
  | .ok offS =>
  match py_int_exn offS with
  | .error e => .error e
  | .ok offset =>
  match py_index parts 5 with
  | .error e => .error e
  | .ok size =>
  match py_index parts 6 with
  | .error e => .error e
  | .ok flagStr =>
  match py_index parts 7 with
  | .error e => .error e
  | .ok msg => .ok ⟨ip_address, port, ttl, id, offset, size, flagStr = [49], msg⟩

/-- `generate_ip_header_size`: decimal digits of `size` left-padded with
zeros to (at least) 8 characters. -/
def generate_ip_header_size (size : Nat) : PyStr :=
  List.replicate (8 - (natToStr size).length) 48 ++ natToStr size

/-- Result of `fragment_ip_packet`: a returned list, a raised exception, or
`nonterm`, marking the state in which the Python `while` loop provably
stops making progress (an iteration takes zero payload bytes, so every
later iteration repeats it with unchanged cursor) and hence never returns. -/
inductive FragResult where
  | ok (frags : List PyStr)
  | exn (e : PyExn)
  | nonterm
deriving DecidableEq, Repr

/-- Result of the fragmentation loop body, before the last-flag fix-up. -/
inductive FragLoopResult where
  | done (frags : List IPHeader)
  | exn (e : PyExn)
  | nonterm
deriving DecidableEq, Repr

/-- The tentative per-fragment header built inside the fragmentation loop:
`f'{ip},{port},{ttl},{id},{offset},00000000,1,'` (8-zero size placeholder,
flag `1`, trailing comma). -/
def tentative_header (ip : PyStr) (port ttl : Int) (id : PyStr) (off : Int) : PyStr :=
  ip ++ 44 :: py_str_of_int port ++ 44 :: py_str_of_int ttl ++ 44 :: id ++
  44 :: py_str_of_int off ++ 44 :: [48, 48, 48, 48, 48, 48, 48, 48] ++
  44 :: [49] ++ [44]

/-- Set the flag of the last fragment to `False`
(`fragments_list[-1].flag = False`). -/
def set_last_flag_false : List IPHeader → List IPHeader
  | [] => []
  | [f] => [⟨f.ip_address, f.port, f.ttl, f.id, f.offset, f.size, false, f.msg⟩]
  | f :: g :: fs => f :: set_last_flag_false (g :: fs)

/-- The `while offset_in_msg < len(msg.encode())` loop of
`fragment_ip_packet`. One unit of fuel per iteration;
`msgBytes.length + 1` fuel suffices for every run that makes progress.
A zero-length slice leaves `offset_in_msg` unchanged, so the Python loop
repeats that iteration forever; the embedding reports it as `nonterm`. -/
def fragment_loop (ip : PyStr) (port ttl : Int) (id : PyStr) (base : Int)
    (msgBytes : ByteSeq) (mtu : Int) :
    Nat → Nat → List IPHeader → FragLoopResult
  | 0, _, _ => .nonterm
  | fuel + 1, offset_in_msg, fragments_list =>
    if offset_in_msg < msgBytes.length then
      let curr_frag_offset : Int := base + offset_in_msg
      let fragment_header := tentative_header ip port ttl id curr_frag_offset
      let fragment_header_len := (pyEncode fragment_header).length
      let curr_fragment_max_msg_len : Int := mtu - fragment_header_len
      let curr_frag_msg :=
        pySlice msgBytes offset_in_msg (offset_in_msg + curr_fragment_max_msg_len)
      let curr_frag_size := generate_ip_header_size curr_frag_msg.length
      match pyDecode curr_frag_msg with
      | none => .exn .unicodeDecodeError
      | some decoded =>
        if curr_frag_msg.length = 0 then .nonterm
        else
          fragment_loop ip port ttl id base msgBytes mtu fuel
            (offset_in_msg + curr_frag_msg.length)
            (fragments_list ++
              [⟨ip, port, ttl, id, curr_frag_offset, curr_frag_size, true, decoded⟩])
    else .done fragments_list

/-- `fragment_ip_packet` from `src/utilities.py`. -/
def fragment_ip_packet (ip_packet : PyStr) (mtu : Int) : FragResult :=
  if (pyEncode ip_packet).length ≤ mtu then .ok [ip_packet]
  else
    match parse_ip_header ip_packet with
    | .error e => .exn e
    | .ok parsed =>
      let msgBytes := pyEncode parsed.msg
      match fragment_loop parsed.ip_address parsed.port parsed.ttl parsed.id
          parsed.offset msgBytes mtu (msgBytes.length + 1) 0 [] with
      | .nonterm => .nonterm
      | .exn e => .exn e
      | .done fragments_list =>
        if parsed.flag then .ok (fragments_list.map IPHeader.to_string)
        else
          match fragments_list with
          | [] => .exn .indexError
          | _ =>
            .ok ((set_last_flag_false fragments_list).map IPHeader.to_string)

/-- Stable insertion of a header into a list sorted by `offset`: it goes
after every element with `offset ≤` its own, as Python stable `sorted`
places it. -/
def insert_by_offset (x : IPHeader) : List IPHeader → List IPHeader
  | [] => [x]
  | y :: ys =>
    if y.offset ≤ x.offset then y :: insert_by_offset x ys else x :: y :: ys

/-- Model of `sorted(fragment_list, key=lambda h: h.offset)` (stable). -/
def sortByOffset (l : List IPHeader) : List IPHeader :=
  l.foldl (fun acc x => insert_by_offset x acc) []

/-- The completeness-scan loop of `reassemble_ip_packet`: walks consecutive
pairs, appending the next message to `total` before checking
`curr.offset + int(curr.size) == next.offset` (the `int()` call may raise
`ValueError`); returns the completeness flag and the accumulated message. -/
def reasm_loop : IPHeader → List IPHeader → PyStr → Except PyExn (Bool × PyStr)
  | _, [], total => .ok (true, total)
  | curr, next :: rest, total =>
    let total := total ++ next.msg
    match py_int_of_string curr.size with
    | none => .error .valueError
    | some sz =>
      if curr.offset + sz ≠ next.offset then .ok (false, total)
      else reasm_loop next rest total

/-- Model of `list(map(parse_ip_header, fragment_list))`: parse each
fragment in order, propagating the first exception. -/
def parse_all : List PyStr → Except PyExn (List IPHeader)
  | [] => .ok []
  | s :: rest =>
    match parse_ip_header s with
    | .error e => .error e
    | .ok h =>
      match parse_all rest with
      | .error e => .error e
      | .ok hs => .ok (h :: hs)

/-- `reassemble_ip_packet` from `src/utilities.py`: `.ok none` models the
implicit `return None` on an incomplete collection. -/
def reassemble_ip_packet (fragment_list : List PyStr) : Except PyExn (Option PyStr) :=
  match parse_all fragment_list with
  | .error e => .error e
  | .ok parsed =>
    match sortByOffset parsed with
    | [] => .error .indexError
    | first :: rest =>
      match (if first.offset = 0 then reasm_loop first rest first.msg
             else .ok (false, first.msg)) with
      | .error e => .error e
      | .ok scan =>
        if scan.1 && !(rest.getLastD first).flag then
          .ok (some (IPHeader.to_string
            ⟨first.ip_address, first.port, first.ttl, first.id, first.offset,
             generate_ip_header_size (pyEncode scan.2).length, false, scan.2⟩))
        else .ok none

/-- The `RoutingTableLine` dataclass of `src/utilities.py`. The
`possible_ip_addresses` field holds the host addresses the CIDR network of
the route-file line expands to (`parse_routing_table_line` computes it via
`ipaddress.IPv4Network`; the embedding takes the expanded list as given,
which is the only form the rest of the code consumes). -/
structure RoutingTableLine where
  possible_ip_addresses : List PyStr
  initial_port : Int
  final_port : Int
  landing_ip : PyStr
  landing_port : Int
  mtu : Int
deriving DecidableEq, Repr

/-- A next-hop entry of a routing ring: `((next_hop_ip, next_hop_port), link_mtu)`. -/
abbrev Route := (PyStr × Int) × Int

/-- The `CircularArrayWithPointer` class: the underlying array (never
mutated after construction, so its stored length is `array.length`) and the
cursor. -/
structure CircularArrayWithPointer (α : Type) where
  array : List α
  pointer : Nat
deriving DecidableEq, Repr

/-- `CircularArrayWithPointer.next`: `none` on an empty array; otherwise
return the element at the cursor and advance the cursor, wrapping from the
last slot back to 0. -/
def CircularArrayWithPointer.next (c : CircularArrayWithPointer α) :
    Option α × CircularArrayWithPointer α :=
  if c.array.length = 0 then (none, c)
  else if c.pointer = c.array.length - 1 then
    (c.array.get? c.pointer, ⟨c.array, 0⟩)
  else (c.array.get? c.pointer, ⟨c.array, c.pointer + 1⟩)

/-- A destination address `(destination_ip, destination_port)`. -/
abbrev DestAddr := PyStr × Int

/-- The `RoundRobinRoutingTable` state: the parsed route-file lines (the
file is assumed immutable, so every `__generate_entry` read sees the same
lines) and the per-destination cache dictionary, as an association list
where insertion prepends (lookup finds the newest binding, matching dict
assignment). -/
structure RoundRobinRoutingTable where
  lines : List RoutingTableLine
  table : List (DestAddr × CircularArrayWithPointer Route)
deriving DecidableEq, Repr

/-- Dictionary lookup in the cache (first binding wins). -/
def table_lookup (t : List (DestAddr × CircularArrayWithPointer Route))
    (k : DestAddr) : Option (CircularArrayWithPointer Route) :=
  match t with
  | [] => none
  | (k', v) :: rest => if k' = k then some v else table_lookup rest k

/-- Dictionary assignment in the cache. -/
def table_insert (t : List (DestAddr × CircularArrayWithPointer Route))
    (k : DestAddr) (v : CircularArrayWithPointer Route) :
    List (DestAddr × CircularArrayWithPointer Route) :=
  (k, v) :: t

/-- `RoundRobinRoutingTable.__generate_entry`: scan the route-file lines in
file order, keeping `((landing_ip, landing_port), mtu)` of each line whose
network contains the destination IP and whose port range
(`range(initial_port, final_port + 1)`) contains the destination port. -/
def generate_entry (lines : List RoutingTableLine) (dst : DestAddr) :
    CircularArrayWithPointer Route :=
  ⟨lines.filterMap (fun line =>
      if dst.1 ∈ line.possible_ip_addresses ∧
         line.initial_port ≤ dst.2 ∧ dst.2 ≤ line.final_port then
        some ((line.landing_ip, line.landing_port), line.mtu)
      else none),
   0⟩

/-- `RoundRobinRoutingTable.next_hop` (also the module-level `next_hop`
wrapper): generate the entry on a cache miss, then delegate to the
circular array; returns the result together with the updated table. -/
def RoundRobinRoutingTable.next_hop (t : RoundRobinRoutingTable)
    (dst : DestAddr) : Option Route × RoundRobinRoutingTable :=
  match table_lookup t.table dst with
  | some circ =>
    let r := circ.next
    (r.1, ⟨t.lines, table_insert t.table dst r.2⟩)
  | none =>
    let circ := generate_entry t.lines dst
    let r := circ.next
    (r.1, ⟨t.lines, table_insert t.table dst r.2⟩)

/-- Result of the `N+1`-th `next_hop` query for a fixed destination,
counting from 0, starting from table state `t`. -/
def queryN (t : RoundRobinRoutingTable) (dst : DestAddr) : Nat → Option Route
  | 0 => (t.next_hop dst).1
  | k + 1 => queryN (t.next_hop dst).2 dst k

/-- The fragment-accumulation dictionary of the router loop, keyed by
datagram id. -/
abbrev FragDict := List (PyStr × List PyStr)

/-- Lookup in the fragment dictionary. -/
def dict_lookup (d : FragDict) (k : PyStr) : Option (List PyStr) :=
  match d with
  | [] => none
  | (k', v) :: rest => if k' = k then some v else dict_lookup rest k

/-- Assignment in the fragment dictionary (newest binding first). -/
def dict_insert (d : FragDict) (k : PyStr) (v : List PyStr) : FragDict :=
  (k, v) :: d

/-- `fragment_dict.pop(k)`: remove every binding of `k`. -/
def dict_remove (d : FragDict) (k : PyStr) : FragDict :=
  d.filter (fun kv => kv.1 ≠ k)

/-- Mutable state of the router receive loop. -/
structure RouterState where
  fragment_dict : FragDict
  table : RoundRobinRoutingTable
deriving DecidableEq, Repr

/-- Observable actions of one loop iteration. -/
inductive RouterOutput where
  | delivered (msg : PyStr)
  | forwarded (addr : PyStr × Int) (fragments : List PyStr)
deriving DecidableEq, Repr

/-- Result of one iteration of the receive loop: an uncaught exception
(the process dies), a hang (the fragmentation loop never returns), or the
new state with the outputs of the iteration. -/
inductive StepResult where
  | crash (e : PyExn)
  | hang
  | ok (st : RouterState) (out : List RouterOutput)
deriving DecidableEq, Repr

/-- One iteration of the `while True` receive loop of `src/router.py`
(lines 45-106), for a received wire text `buffer`. `parse_ip_header` is
not guarded by any `try`, so a parse exception crashes the loop. On the
transit branch the code runs
`forward_address, link_mtu = next_hop(...)` before the `is None` check:
unpacking the `None` returned for an empty ring raises `TypeError`. The
TTL decrement mutates only the parsed object; the fragments are built from
the original `buffer`, so they keep the received TTL. -/
def routerStep (router_IP : PyStr) (router_port : Int) (st : RouterState)
    (buffer : PyStr) : StepResult :=
  match parse_ip_header buffer with
  | .error e => .crash e
  | .ok ip_header =>
    if ip_header.ttl ≤ 0 then .ok st []
    else if ip_header.ip_address = router_IP ∧ ip_header.port = router_port then
      let list := (dict_lookup st.fragment_dict ip_header.id).getD [] ++ [buffer]
      let dict := dict_insert st.fragment_dict ip_header.id list
      match reassemble_ip_packet list with
      | .error e => .crash e
      | .ok none => .ok ⟨dict, st.table⟩ []
      | .ok (some w) =>
        match parse_ip_header w with
        | .error e => .crash e
        | .ok r => .ok ⟨dict_remove dict ip_header.id, st.table⟩ [.delivered r.msg]
    else
      match st.table.next_hop (ip_header.ip_address, ip_header.port) with
      | (none, _) => .crash .typeError
      | (some (forward_address, link_mtu), table) =>
        -- ip_header.ttl -= 1 happens here in the source, on the parsed
        -- object only; the re-fragmented bytes below come from `buffer`.
        match fragment_ip_packet buffer link_mtu with
        | .exn e => .crash e
        | .nonterm => .hang
        | .ok fragments => .ok ⟨st.fragment_dict, table⟩ [.forwarded forward_address fragments]

/-- Wire-byte length of the tentative fragment header at the datagram's own
offset (the header measured in step 3 of the fragmentation algorithm at
cursor 0); the minimal per-fragment overhead of the spec's MTU-bound
precondition `M >= minimum_header_bytes(d) + 1`. -/
def minimum_header_bytes (d : IPHeader) : Nat :=
  (pyEncode (tentative_header d.ip_address d.port d.ttl d.id d.offset)).length

/-- Wire-byte length of the tentative fragment header with the offset
advanced by `c` payload bytes past the datagram's own offset. -/
def header_bytes_at (d : IPHeader) (c : Nat) : Nat :=
  (pyEncode (tentative_header d.ip_address d.port d.ttl d.id (d.offset + c))).length

/-- The payload each wire fragment carries, as the decoder reads it. -/
def payloads_of (l : List PyStr) : List PyStr :=
  l.map (fun f => match parse_ip_header f with | .ok h => h.msg | .error _ => [])

/-- The TTL field of a wire datagram, as the decoder reads it. -/
def parsed_ttl (f : PyStr) : Option Int :=
  match parse_ip_header f with | .ok h => some h.ttl | .error _ => none

/-- The fragment lists a loop iteration emitted to the next hop. -/
def forwarded_fragments (r : StepResult) : List PyStr :=
  match r with
  | .ok _ out =>
    out.flatMap (fun o => match o with | .forwarded _ fr => fr | _ => [])
  | _ => []

/-- Comma-payload datagram refuting the round-trip law: §3 invariants hold
(8-digit size matching the 3 payload bytes, comma-free id, offset 0). -/
def dComma : IPHeader :=
  ⟨str2py "A", 1, 1, str2py "x", 0, str2py "00000003", false, str2py "a,b"⟩

/-- C1. Codec round-trip fails on a payload containing a comma:
`parse_ip_header` splits the wire line at every comma with no split limit
(`src/utilities.py` line 256), so the payload `a,b` of a datagram
satisfying the §3 invariants comes back truncated to `a`. The spec (and
the `to_string` docstring, which asserts the functions are mutually
inverse) requires the round trip to restore the datagram byte-for-byte. -/
theorem C1_parse_to_string_truncates_comma_payload :
    parse_ip_header dComma.to_string =
      .ok ⟨str2py "A", 1, 1, str2py "x", 0, str2py "00000003", false, str2py "a"⟩ ∧
    str2py "a" ≠ dComma.msg := by
  decide

/-- Routing line delivering destination `10.0.0.1:9000` to `127.0.0.1:8001`
over a link of MTU 35. -/
def rt_line_C2 : RoutingTableLine :=
  ⟨[str2py "10.0.0.1"], 9000, 9000, str2py "127.0.0.1", 8001, 35⟩

/-- Initial router state for the forwarding scenario. -/
def st0_C2 : RouterState := ⟨[], ⟨[rt_line_C2], []⟩⟩

/-- A transit datagram arriving with TTL 3. -/
def buf_C2 : PyStr := str2py "10.0.0.1,9000,3,id,0,00000010,0,aaaaaaaaaa"

/-- C2. TTL decrement is lost before fragmentation: the router decrements
`ip_header.ttl` on the parsed object (`src/router.py` line 99) but then
fragments the original receive buffer (line 102), so all four fragments
emitted for a transit datagram that arrived with TTL 3 still carry TTL 3,
where the spec requires them to carry TTL 2. -/
theorem C2_forwarded_fragments_keep_undecremented_ttl :
    parsed_ttl buf_C2 = some 3 ∧
    (forwarded_fragments
        (routerStep (str2py "127.0.0.1") 8000 st0_C2 buf_C2)).map parsed_ttl =
      [some 3, some 3, some 3, some 3] := by
  decide

/-- Router state with an empty route file. -/
def st_empty_C3 : RouterState := ⟨[], ⟨[], []⟩⟩

/-- C3. Per-packet errors crash the receive loop: a transit datagram whose
destination has an empty route ring reaches
`forward_address, link_mtu = next_hop(...)` (`src/router.py` line 81),
which unpacks the `None` returned for an empty ring and raises `TypeError`
before the `is None` check on line 88 can run; and a buffer that does not
parse raises an uncaught `IndexError` at line 48. The spec requires both
to be recovered locally (log-and-drop, drop). -/
theorem C3_route_miss_and_parse_failure_crash_loop :
    routerStep (str2py "127.0.0.1") 8000 st_empty_C3
        (str2py "10.0.0.1,9000,5,id,0,00000001,0,x") = .crash .typeError ∧
    routerStep (str2py "127.0.0.1") 8000 st_empty_C3 (str2py "garbage") =
      .crash .indexError := by
  decide

/-- C8 counterexample. The decoder does not validate `size` or `flag`: a
wire line whose size field is `BAD` and whose flag field is `7` parses
successfully (flag becomes `False`), where the claim requires a
`MalformedHeader` failure. -/
theorem C8_counterexample_bad_size_and_flag_parse_ok :
    parse_ip_header (str2py "A,1,1,x,0,BAD,7,m") =
      .ok ⟨str2py "A", 1, 1, str2py "x", 0, str2py "BAD", false, str2py "m"⟩ := by
  decide

/-- Datagram whose payload has a two-byte character right after the first
split point. -/
def d_C9 : IPHeader :=
  ⟨str2py "A", 1, 1, str2py "x", 0, str2py "00000003", false, str2py "añ"⟩

/-- C9 counterexample. Fragmentation does not succeed when a split point
falls inside a multi-byte character: with MTU 22 (which satisfies
`M = minimum_header_bytes(d) + 1`) the second slice starts inside the
two-byte encoding of the final character, and
`curr_frag_msg.decode()` (`src/utilities.py` line 389) raises
`UnicodeDecodeError` instead of producing fragments. -/
theorem C9_counterexample_midchar_split_raises :
    minimum_header_bytes d_C9 + 1 = 22 ∧
    fragment_ip_packet d_C9.to_string 22 = .exn .unicodeDecodeError := by
  decide

/-- Datagram with an 11-byte payload: offsets 0..9 fit in one decimal
digit, offset 10 needs two. -/
def d_C10 : IPHeader :=
  ⟨str2py "A", 1, 1, str2py "x", 0, str2py "00000011", false, str2py "aaaaaaaaaaa"⟩

/-- C10 counterexample. `fragment_ip_packet` does not terminate for every
`M ≥ minimum_header_bytes(d) + 1`: with MTU 22 the first ten one-byte
fragments push the offset to 10, the per-fragment header grows to 22
bytes, the payload budget `mtu - fragment_header_len` reaches 0, the slice
at the cursor is empty and `offset_in_msg` stops advancing, so the `while`
loop of `src/utilities.py` lines 363-394 repeats that iteration forever
(the embedding reports this zero-progress state as `nonterm`). -/
theorem C10_counterexample_budget_zero_diverges :
    minimum_header_bytes d_C10 + 1 = 22 ∧
    fragment_ip_packet d_C10.to_string 22 = .nonterm := by
  decide

/-- Comma-payload datagram for the fragmenter claims: §3 invariants hold
and MTU 23 satisfies `M ≥ minimum_header_bytes(d) + 1 = 22`. -/
def d_C45 : IPHeader :=
  ⟨str2py "A", 1, 1, str2py "x", 0, str2py "00000005", false, str2py "aa,bb"⟩

/-- C4 counterexample. For the comma payload `aa,bb` and MTU 23 (which is
`≥ minimum_header_bytes + 1`), `fragment_ip_packet(encode(d), 23)` returns
a single fragment whose payload is `aa`: the fragmenter re-parses the wire
line (`src/utilities.py` line 347) and the splitter truncates the payload
at its first comma, so the concatenated fragment payloads do not
reconstruct the datagram payload. -/
theorem C4_counterexample_comma_payload_not_reconstructed :
    minimum_header_bytes d_C45 + 1 ≤ 23 ∧
    fragment_ip_packet d_C45.to_string 23 =
      .ok [str2py "A,1,1,x,0,00000002,0,aa"] ∧
    (payloads_of [str2py "A,1,1,x,0,00000002,0,aa"]).flatten = str2py "aa" ∧
    str2py "aa" ≠ d_C45.msg := by
  decide

/-- C5 counterexample. For the same comma payload and MTU 23,
`reassemble_ip_packet(fragment_ip_packet(encode(d), 23))` is non-None but
decodes to a datagram whose payload is `aa`, not the original `aa,bb`, so
the fragment-reassemble identity fails at an input satisfying its
hypothesis `M ≥ minimum_header_bytes(d) + 1`. -/
theorem C5_counterexample_comma_payload_reassembles_differently :
    fragment_ip_packet d_C45.to_string 23 =
      .ok [str2py "A,1,1,x,0,00000002,0,aa"] ∧
    reassemble_ip_packet [str2py "A,1,1,x,0,00000002,0,aa"] =
      .ok (some (str2py "A,1,1,x,0,00000002,0,aa")) ∧
    payloads_of [str2py "A,1,1,x,0,00000002,0,aa"] = [str2py "aa"] ∧
    str2py "aa" ≠ d_C45.msg := by
  decide

/-! ## Lemmas about the string and byte model -/

theorem pyEncode_nil : pyEncode [] = [] := rfl

theorem pyEncode_cons (c : Nat) (s : PyStr) :
    pyEncode (c :: s) = encChar c ++ pyEncode s := by
  simp [pyEncode]

theorem pyEncode_append (a b : PyStr) :
    pyEncode (a ++ b) = pyEncode a ++ pyEncode b := by
  simp [pyEncode]

theorem encChar_ascii {c : Nat} (h : c < 128) : encChar c = [c] := by
  simp [encChar, h]

theorem pyEncode_ascii {s : PyStr} (h : ∀ c ∈ s, c < 128) : pyEncode s = s := by
  induction s with
  | nil => rfl
  | cons c cs ih =>
    rw [pyEncode_cons, encChar_ascii (h c (by simp)), ih (fun x hx => h x (by simp [hx]))]
    rfl

theorem encChar_ne_nil (c : Nat) : encChar c ≠ [] := by
  unfold encChar
  split
  · simp
  · split
    · simp
    · split <;> simp

theorem encChar_length_pos (c : Nat) : 0 < (encChar c).length :=
  List.length_pos.mpr (encChar_ne_nil c)

theorem comma_of_mem_encChar {c b : Nat} (hb : b ∈ encChar c) (h44 : b = 44) :
    c = 44 := by
  subst h44
  unfold encChar at hb
  split at hb
  · exact (List.mem_singleton.mp hb).symm
  · split at hb
    · simp only [List.mem_cons, List.not_mem_nil, or_false] at hb
      rcases hb with h | h <;> omega
    · split at hb
      · simp only [List.mem_cons, List.not_mem_nil, or_false] at hb
        rcases hb with h | h | h <;> omega
      · simp only [List.mem_cons, List.not_mem_nil, or_false] at hb
        rcases hb with h | h | h | h <;> omega

theorem comma_mem_pyEncode {s : PyStr} : 44 ∈ pyEncode s ↔ 44 ∈ s := by
  induction s with
  | nil => simp [pyEncode]
  | cons c cs ih =>
    rw [pyEncode_cons]
    simp only [List.mem_append, List.mem_cons, ih]
    constructor
    · rintro (h | h)
      · exact Or.inl (comma_of_mem_encChar h rfl).symm
      · exact Or.inr h
    · rintro (rfl | h)
      · exact Or.inl (by simp [encChar])
      · exact Or.inr h

/-! ## Lemmas about decimal rendering and parsing -/

theorem natChars_congr : ∀ (f1 : Nat) (n f2 : Nat), n ≤ f1 → n ≤ f2 →
    natChars f1 n = natChars f2 n := by
  intro f1
  induction f1 with
  | zero =>
    intro n f2 h1 _
    interval_cases n
    cases f2 <;> simp [natChars]
  | succ f ih =>
    intro n f2 h1 h2
    by_cases hn : n = 0
    · subst hn
      cases f2 <;> simp [natChars]
    · have hn1 : 1 ≤ n := Nat.one_le_iff_ne_zero.mpr hn
      obtain ⟨f2', rfl⟩ : ∃ k, f2 = k + 1 := ⟨f2 - 1, by omega⟩
      have hdiv : n / 10 < n := Nat.div_lt_self hn1 (by omega)
      simp only [natChars, hn, if_false]
      rw [ih (n / 10) f2' (by omega) (by omega)]

theorem natChars_digits : ∀ (fuel n : Nat), n ≤ fuel →
    ∀ c ∈ natChars fuel n, 48 ≤ c ∧ c ≤ 57 := by
  intro fuel
  induction fuel with
  | zero => intro n _ c hc; simp [natChars] at hc
  | succ f ih =>
    intro n hn c hc
    by_cases h0 : n = 0
    · subst h0; simp [natChars] at hc
    · simp only [natChars, h0, if_false, List.mem_append, List.mem_singleton] at hc
      rcases hc with h | h
      · exact ih (n / 10) (by omega) c h
      · have := Nat.mod_lt n (show 0 < 10 by omega)
        omega

theorem natChars_value : ∀ (fuel n : Nat), n ≤ fuel → ∀ acc : Nat,
    (natChars fuel n).foldl (fun a c => a * 10 + (c - 48)) acc =
      acc * 10 ^ (natChars fuel n).length + n := by
  intro fuel
  induction fuel with
  | zero =>
    intro n hn acc
    interval_cases n
    simp [natChars]
  | succ f ih =>
    intro n hn acc
    by_cases h0 : n = 0
    · subst h0; simp [natChars]
    · simp only [natChars, h0, if_false]
      rw [List.foldl_append, ih (n / 10) (by omega) acc]
      simp only [List.foldl_cons, List.foldl_nil, List.length_append,
        List.length_singleton]
      have hmod : 48 + n % 10 - 48 = n % 10 := by omega
      rw [hmod, pow_succ]
      have := Nat.div_add_mod n 10
      ring_nf
      omega

theorem natChars_ne_nil {fuel n : Nat} (h1 : 1 ≤ n) (h2 : n ≤ fuel) :
    natChars fuel n ≠ [] := by
  obtain ⟨f, rfl⟩ : ∃ k, fuel = k + 1 := ⟨fuel - 1, by omega⟩
  simp [natChars, show n ≠ 0 by omega]

theorem natChars_len_mono : ∀ (fuel m n : Nat), m ≤ n → n ≤ fuel →
    (natChars fuel m).length ≤ (natChars fuel n).length := by
  intro fuel
  induction fuel with
  | zero => intro m n _ _; simp [natChars]
  | succ f ih =>
    intro m n hmn hn
    by_cases hm : m = 0
    · subst hm; simp [natChars]
    · have hn0 : n ≠ 0 := by omega
      simp only [natChars, hm, hn0, if_false, List.length_append,
        List.length_singleton]
      have h1 : m / 10 ≤ n / 10 := Nat.div_le_div_right hmn
      have h2 : n / 10 ≤ f := by
        have := Nat.div_lt_self (show 1 ≤ n by omega) (show 1 < 10 by omega)
        omega
      exact Nat.add_le_add_right (ih _ _ h1 h2) 1

theorem natToStr_ne_nil (n : Nat) : natToStr n ≠ [] := by
  unfold natToStr
  split
  · simp
  · exact natChars_ne_nil (by omega) le_rfl

theorem natToStr_digits {n : Nat} : ∀ c ∈ natToStr n, 48 ≤ c ∧ c ≤ 57 := by
  intro c hc
  unfold natToStr at hc
  split at hc
  · simp only [List.mem_singleton] at hc; omega
  · exact natChars_digits n n le_rfl c hc

theorem natToStr_len_mono {m n : Nat} (h : m ≤ n) :
    (natToStr m).length ≤ (natToStr n).length := by
  unfold natToStr
  by_cases hm : m = 0
  · subst hm
    rw [if_pos rfl]
    by_cases hn : n = 0
    · rw [if_pos hn]
    · rw [if_neg hn]
      have h1 := natChars_ne_nil (show 1 ≤ n by omega) (le_refl n)
      have h2 := List.length_pos.mpr h1
      simpa using h2
  · have hn : n ≠ 0 := by omega
    rw [if_neg hm, if_neg hn]
    rw [natChars_congr m m n (le_refl m) (by omega)]
    exact natChars_len_mono n m n h le_rfl

theorem parse_nat_digits_natToStr (n : Nat) : parse_nat_digits (natToStr n) = some n := by
  unfold parse_nat_digits
  rw [if_neg (natToStr_ne_nil n)]
  rw [if_pos]
  · congr 1
    unfold natToStr
    split
    · simp only [List.foldl_cons, List.foldl_nil]; omega
    · rw [natChars_value n n le_rfl 0]
      omega
  · rw [List.all_eq_true]
    intro c hc
    have := natToStr_digits c hc
    simp only [Bool.and_eq_true, decide_eq_true_eq]
    omega

theorem py_int_of_string_py_str_of_int (i : Int) :
    py_int_of_string (py_str_of_int i) = some i := by
  unfold py_str_of_int
  split
  · rename_i hneg
    have hn : (0:Int) ≤ -i := by omega
    simp [py_int_of_string, parse_nat_digits_natToStr, Int.toNat_of_nonneg hn]
  · rename_i hpos
    have hdig := @natToStr_digits i.toNat
    rcases h : natToStr i.toNat with _ | ⟨c, cs⟩
    · exact absurd h (natToStr_ne_nil _)
    · have hc : 48 ≤ c ∧ c ≤ 57 := by
        apply hdig; rw [h]; simp
      have hn : (0:Int) ≤ i := by omega
      simp [py_int_of_string, show ¬c = 45 by omega, show ¬c = 43 by omega, ← h,
        parse_nat_digits_natToStr, Int.toNat_of_nonneg hn]

theorem py_str_of_int_chars {i : Int} :
    ∀ c ∈ py_str_of_int i, (48 ≤ c ∧ c ≤ 57) ∨ c = 45 := by
  intro c hc
  unfold py_str_of_int at hc
  split at hc
  · rcases List.mem_cons.mp hc with rfl | h
    · right; rfl
    · left; exact natToStr_digits c h
  · left; exact natToStr_digits c hc

theorem py_str_of_int_no_comma {i : Int} : 44 ∉ py_str_of_int i := by
  intro h
  rcases py_str_of_int_chars 44 h with h | h <;> omega

theorem py_str_of_int_ascii {i : Int} : ∀ c ∈ py_str_of_int i, c < 128 := by
  intro c hc
  rcases py_str_of_int_chars c hc with h | h <;> omega

/-! ## Lemmas about splitting and the codec round trip -/

theorem pySplit_no_comma {s : PyStr} (h : 44 ∉ s) : pySplit s = [s] := by
  induction s with
  | nil => rfl
  | cons c cs ih =>
    have hc : c ≠ 44 := fun hc => h (by simp [hc])
    have ih2 := ih (fun hm => h (by simp [hm]))
    simp [pySplit, hc, ih2]

theorem pySplit_append {a b : PyStr} (h : 44 ∉ a) :
    pySplit (a ++ 44 :: b) = a :: pySplit b := by
  induction a with
  | nil => simp [pySplit]
  | cons c cs ih =>
    have hc : c ≠ 44 := fun hc => h (by simp [hc])
    have ih2 := ih (fun hm => h (by simp [hm]))
    simp [pySplit, hc, ih2]

theorem flag_str_no_comma {b : Bool} : 44 ∉ (if b then [49] else [48] : PyStr) := by
  cases b <;> simp

/-- The decoder inverts the encoder on any header whose textual fields are
comma-free (the `size` field need not be 8 digits, the flag renders as
`1`/`0`). -/
theorem parse_to_string_roundtrip (h : IPHeader) (hip : 44 ∉ h.ip_address)
    (hid : 44 ∉ h.id) (hsize : 44 ∉ h.size) (hmsg : 44 ∉ h.msg) :
    parse_ip_header h.to_string = .ok h := by
  obtain ⟨ip, port, ttl, id, off, size, flag, msg⟩ := h
  simp only at hip hid hsize hmsg
  have hsplit : pySplit (IPHeader.to_string ⟨ip, port, ttl, id, off, size, flag, msg⟩) =
      [ip, py_str_of_int port, py_str_of_int ttl, id,
       py_str_of_int off, size, if flag then [49] else [48], msg] := by
    unfold IPHeader.to_string
    simp only [List.append_assoc, List.cons_append]
    rw [pySplit_append hip, pySplit_append py_str_of_int_no_comma,
        pySplit_append py_str_of_int_no_comma, pySplit_append hid,
        pySplit_append py_str_of_int_no_comma, pySplit_append hsize,
        pySplit_append flag_str_no_comma, pySplit_no_comma hmsg]
  simp only [parse_ip_header, hsplit, py_index, List.get?, py_int_exn,
    py_int_of_string_py_str_of_int]
  cases flag <;> simp

/-! ## Lemmas about the 8-digit size field -/

theorem generate_size_digits {n : Nat} :
    ∀ c ∈ generate_ip_header_size n, 48 ≤ c ∧ c ≤ 57 := by
  intro c hc
  unfold generate_ip_header_size at hc
  rcases List.mem_append.mp hc with h | h
  · have := List.eq_of_mem_replicate h
    omega
  · exact natToStr_digits c h

theorem generate_size_no_comma {n : Nat} : 44 ∉ generate_ip_header_size n := by
  intro h
  have := generate_size_digits 44 h
  omega

theorem generate_size_ne_nil (n : Nat) : generate_ip_header_size n ≠ [] := by
  unfold generate_ip_header_size
  intro h
  rcases List.append_eq_nil.mp h with ⟨_, h2⟩
  exact natToStr_ne_nil n h2

theorem natToStr_len_le_eight {n : Nat} (h : n < 10 ^ 8) :
    (natToStr n).length ≤ 8 := by
  have h1 : (natToStr n).length ≤ (natToStr 99999999).length :=
    natToStr_len_mono (by omega)
  have h2 : (natToStr 99999999).length = 8 := by decide
  omega

theorem generate_size_length {n : Nat} (h : n < 10 ^ 8) :
    (generate_ip_header_size n).length = 8 := by
  unfold generate_ip_header_size
  rw [List.length_append, List.length_replicate]
  have := natToStr_len_le_eight h
  omega

theorem foldl_replicate_48 (k : Nat) :
    (List.replicate k 48).foldl (fun a c => a * 10 + (c - 48)) 0 = 0 := by
  induction k with
  | zero => rfl
  | succ m ih => simpa [List.replicate_succ] using ih

theorem natToStr_foldl (n : Nat) :
    (natToStr n).foldl (fun a c => a * 10 + (c - 48)) 0 = n := by
  unfold natToStr
  split
  · rename_i h0
    subst h0
    rfl
  · rw [natChars_value n n le_rfl 0]
    omega

theorem parse_nat_digits_generate_size (n : Nat) :
    parse_nat_digits (generate_ip_header_size n) = some n := by
  unfold parse_nat_digits
  rw [if_neg (generate_size_ne_nil n), if_pos]
  · congr 1
    unfold generate_ip_header_size
    rw [List.foldl_append, foldl_replicate_48, natToStr_foldl]
  · rw [List.all_eq_true]
    intro c hc
    have := generate_size_digits c hc
    simp only [Bool.and_eq_true, decide_eq_true_eq]
    omega

theorem py_int_of_string_digits {s : PyStr} (hne : s ≠ [])
    (hdig : ∀ c ∈ s, 48 ≤ c ∧ c ≤ 57) :
    py_int_of_string s = (parse_nat_digits s).map (fun n => (n : Int)) := by
  rcases s with _ | ⟨c, cs⟩
  · exact absurd rfl hne
  · have hc : 48 ≤ c ∧ c ≤ 57 := hdig c (by simp)
    simp [py_int_of_string, show ¬c = 45 by omega, show ¬c = 43 by omega]

theorem py_int_generate_size (n : Nat) :
    py_int_of_string (generate_ip_header_size n) = some (n : Int) := by
  rw [py_int_of_string_digits (generate_size_ne_nil n) generate_size_digits,
      parse_nat_digits_generate_size]
  rfl

/-! ## Round-robin rotation -/

theorem circ_next_of_lt {α : Type} {c : CircularArrayWithPointer α}
    (h : c.pointer < c.array.length) :
    c.next = (c.array.get? c.pointer, ⟨c.array, (c.pointer + 1) % c.array.length⟩) := by
  unfold CircularArrayWithPointer.next
  rw [if_neg (by omega)]
  by_cases hp : c.pointer = c.array.length - 1
  · rw [if_pos hp]
    have : (c.pointer + 1) % c.array.length = 0 := by
      rw [show c.pointer + 1 = c.array.length by omega, Nat.mod_self]
    rw [this]
  · rw [if_neg hp]
    have : (c.pointer + 1) % c.array.length = c.pointer + 1 :=
      Nat.mod_eq_of_lt (by omega)
    rw [this]

theorem table_lookup_insert (t : List (DestAddr × CircularArrayWithPointer Route))
    (k : DestAddr) (v : CircularArrayWithPointer Route) :
    table_lookup (table_insert t k v) k = some v := by
  simp [table_lookup, table_insert]

theorem queryN_entry (dst : DestAddr) (ring : List Route) :
    ∀ (k p : Nat) (t : RoundRobinRoutingTable), p < ring.length →
    table_lookup t.table dst = some ⟨ring, p⟩ →
    queryN t dst k = ring.get? ((p + k) % ring.length) := by
  intro k
  induction k with
  | zero =>
    intro p t hp hl
    simp only [queryN, RoundRobinRoutingTable.next_hop, hl]
    rw [circ_next_of_lt hp]
    simp only [Nat.add_zero, Nat.mod_eq_of_lt hp]
  | succ k ih =>
    intro p t hp hl
    simp only [queryN, RoundRobinRoutingTable.next_hop, hl]
    rw [circ_next_of_lt hp]
    have hlen : 0 < ring.length := by omega
    have hp1 : (p + 1) % ring.length < ring.length := Nat.mod_lt _ hlen
    rw [ih ((p + 1) % ring.length) _ hp1 (table_lookup_insert _ _ _)]
    congr 1
    rw [Nat.mod_add_mod]
    congr 1
    omega

theorem queryN_empty_ring (dst : DestAddr) :
    ∀ (k p : Nat) (t : RoundRobinRoutingTable),
    table_lookup t.table dst = some ⟨[], p⟩ →
    queryN t dst k = none := by
  intro k
  induction k with
  | zero =>
    intro p t hl
    simp only [queryN, RoundRobinRoutingTable.next_hop, hl]
    simp [CircularArrayWithPointer.next]
  | succ k ih =>
    intro p t hl
    simp only [queryN, RoundRobinRoutingTable.next_hop, hl]
    have hnext : CircularArrayWithPointer.next (⟨[], p⟩ : CircularArrayWithPointer Route) =
        (none, ⟨[], p⟩) := by
      simp [CircularArrayWithPointer.next]
    rw [hnext]
    exact ih p _ (table_lookup_insert _ _ _)

/-- C7. Round-robin rotation order: starting from a fresh table, the
`k+1`-th `next_hop` query for a destination returns the entry at index
`k mod n` of the ring that `__generate_entry` collects by filtering the
route-file lines in file order (`generate_entry`), and `none` on every
query when that ring is empty (`get?` of the empty list). In the claim's
1-based numbering the `N`-th query returns entry `(N-1) mod n`, so the
first query returns the first matching line and over `k` queries each
entry is served `floor(k/n)` or `ceil(k/n)` times. -/
theorem C7_round_robin_rotation (lines : List RoutingTableLine) (dst : DestAddr)
    (k : Nat) :
    queryN ⟨lines, []⟩ dst k =
      (generate_entry lines dst).array.get?
        (k % (generate_entry lines dst).array.length) := by
  rcases hring : (generate_entry lines dst).array with _ | ⟨r, ring'⟩
  · have hgen : generate_entry lines dst = ⟨[], 0⟩ := by
      have : (generate_entry lines dst).pointer = 0 := rfl
      cases hg : generate_entry lines dst
      rw [hg] at hring this
      simp only at hring this
      rw [hring, this]
    cases k with
    | zero =>
      simp only [queryN, RoundRobinRoutingTable.next_hop, table_lookup, hgen]
      simp [CircularArrayWithPointer.next]
    | succ k =>
      simp only [queryN, RoundRobinRoutingTable.next_hop, table_lookup, hgen]
      have hnext : CircularArrayWithPointer.next (⟨[], 0⟩ : CircularArrayWithPointer Route) =
          (none, ⟨[], 0⟩) := by
        simp [CircularArrayWithPointer.next]
      rw [hnext]
      simp only
      rw [queryN_empty_ring dst k 0 _ (table_lookup_insert _ _ _)]
      simp
  · have hgen : generate_entry lines dst = ⟨r :: ring', 0⟩ := by
      have : (generate_entry lines dst).pointer = 0 := rfl
      cases hg : generate_entry lines dst
      rw [hg] at hring this
      simp only at hring this
      rw [hring, this]
    have hlen : 0 < (r :: ring').length := by simp
    cases k with
    | zero =>
      simp only [queryN, RoundRobinRoutingTable.next_hop, table_lookup, hgen]
      rw [circ_next_of_lt (by simp)]
      simp [Nat.mod_eq_of_lt hlen]
    | succ k =>
      simp only [queryN, RoundRobinRoutingTable.next_hop, table_lookup, hgen]
      rw [circ_next_of_lt (by simp)]
      simp only
      have h1 : (0 + 1) % (r :: ring').length < (r :: ring').length :=
        Nat.mod_lt _ hlen
      rw [queryN_entry dst (r :: ring') k _ _ h1 (table_lookup_insert _ _ _)]
      congr 1
      rw [Nat.mod_add_mod]
      congr 1
      omega

/-! ## Decoder failure characterization -/

theorem py_index_ok_iff {l : List PyStr} {i : Nat} {x : PyStr} :
    py_index l i = .ok x ↔ l.get? i = some x := by
  unfold py_index
  cases h : l.get? i <;> simp

theorem py_index_ok_exists {l : List PyStr} {i : Nat} (h : i < l.length) :
    ∃ x, py_index l i = .ok x ∧ l.get? i = some x := by
  rcases List.get?_eq_get h with hg
  exact ⟨l.get ⟨i, h⟩, py_index_ok_iff.mpr hg, hg⟩

theorem py_int_exn_ok_iff {s : PyStr} {n : Int} :
    py_int_exn s = .ok n ↔ py_int_of_string s = some n := by
  unfold py_int_exn
  cases h : py_int_of_string s <;> simp

/-- C8 amended. `parse_ip_header` succeeds exactly when the comma split
yields at least 8 parts (at least 7 commas) and the port, TTL and offset
fields (parts 1, 2 and 4) each parse as a signed decimal integer; the
`size` and flag fields are never validated (any flag other than `1` just
reads as `False`), contrary to the claim's last two failure conditions. -/
theorem C8_amended_parse_failure_characterization (s : PyStr) :
    (∃ h, parse_ip_header s = .ok h) ↔
      (8 ≤ (pySplit s).length ∧
       py_int_of_string ((pySplit s).getD 1 []) ≠ none ∧
       py_int_of_string ((pySplit s).getD 2 []) ≠ none ∧
       py_int_of_string ((pySplit s).getD 4 []) ≠ none) := by
  constructor
  · rintro ⟨h, heq⟩
    unfold parse_ip_header at heq
    simp only at heq
    split at heq
    · exact absurd heq (by simp)
    rename_i ip hip
    split at heq
    · exact absurd heq (by simp)
    rename_i portS hportS
    split at heq
    · exact absurd heq (by simp)
    rename_i port hport
    split at heq
    · exact absurd heq (by simp)
    rename_i ttlS httlS
    split at heq
    · exact absurd heq (by simp)
    rename_i ttl httl
    split at heq
    · exact absurd heq (by simp)
    rename_i id hid
    split at heq
    · exact absurd heq (by simp)
    rename_i offS hoffS
    split at heq
    · exact absurd heq (by simp)
    rename_i off hoff
    split at heq
    · exact absurd heq (by simp)
    rename_i size hsize
    split at heq
    · exact absurd heq (by simp)
    rename_i flagS hflagS
    split at heq
    · exact absurd heq (by simp)
    rename_i msg hmsg
    have h7 : (pySplit s).get? 7 = some msg := py_index_ok_iff.mp hmsg
    have hlen : 8 ≤ (pySplit s).length := by
      obtain ⟨hlt, _⟩ := List.get?_eq_some.mp h7
      omega
    have h1 : (pySplit s).get? 1 = some portS := py_index_ok_iff.mp hportS
    have h2 : (pySplit s).get? 2 = some ttlS := py_index_ok_iff.mp httlS
    have h4 : (pySplit s).get? 4 = some offS := py_index_ok_iff.mp hoffS
    refine ⟨hlen, ?_, ?_, ?_⟩
    · rw [List.getD_eq_getElem?_getD, ← List.get?_eq_getElem?, h1]
      simp only [Option.getD_some]
      rw [py_int_exn_ok_iff.mp hport]
      simp
    · rw [List.getD_eq_getElem?_getD, ← List.get?_eq_getElem?, h2]
      simp only [Option.getD_some]
      rw [py_int_exn_ok_iff.mp httl]
      simp
    · rw [List.getD_eq_getElem?_getD, ← List.get?_eq_getElem?, h4]
      simp only [Option.getD_some]
      rw [py_int_exn_ok_iff.mp hoff]
      simp
  · rintro ⟨hlen, hp1, hp2, hp4⟩
    obtain ⟨x0, hx0, hg0⟩ := py_index_ok_exists (l := pySplit s) (i := 0) (by omega)
    obtain ⟨x1, hx1, hg1⟩ := py_index_ok_exists (l := pySplit s) (i := 1) (by omega)
    obtain ⟨x2, hx2, hg2⟩ := py_index_ok_exists (l := pySplit s) (i := 2) (by omega)
    obtain ⟨x3, hx3, hg3⟩ := py_index_ok_exists (l := pySplit s) (i := 3) (by omega)
    obtain ⟨x4, hx4, hg4⟩ := py_index_ok_exists (l := pySplit s) (i := 4) (by omega)
    obtain ⟨x5, hx5, hg5⟩ := py_index_ok_exists (l := pySplit s) (i := 5) (by omega)
    obtain ⟨x6, hx6, hg6⟩ := py_index_ok_exists (l := pySplit s) (i := 6) (by omega)
    obtain ⟨x7, hx7, hg7⟩ := py_index_ok_exists (l := pySplit s) (i := 7) (by omega)
    rw [List.getD_eq_getElem?_getD, ← List.get?_eq_getElem?, hg1, Option.getD_some] at hp1
    rw [List.getD_eq_getElem?_getD, ← List.get?_eq_getElem?, hg2, Option.getD_some] at hp2
    rw [List.getD_eq_getElem?_getD, ← List.get?_eq_getElem?, hg4, Option.getD_some] at hp4
    obtain ⟨n1, hn1⟩ := Option.ne_none_iff_exists'.mp hp1
    obtain ⟨n2, hn2⟩ := Option.ne_none_iff_exists'.mp hp2
    obtain ⟨n4, hn4⟩ := Option.ne_none_iff_exists'.mp hp4
    refine ⟨⟨x0, n1, n2, x3, n4, x5, x6 = [49], x7⟩, ?_⟩
    unfold parse_ip_header
    simp only [hx0, hx1, hx2, hx3, hx4, hx5, hx6, hx7,
      py_int_exn_ok_iff.mpr hn1, py_int_exn_ok_iff.mpr hn2,
      py_int_exn_ok_iff.mpr hn4]


/-! ## UTF-8 decoder lemmas -/

theorem decodeOne_sound : ∀ {bs : ByteSeq} {c : Nat} {rest : ByteSeq},
    decodeOne bs = some (c, rest) →
    bs = encChar c ++ rest ∧ validChar c ∧ rest.length < bs.length := by
  intro bs c rest h
  match bs with
  | [] => simp [decodeOne] at h
  | b :: bs =>
    simp only [decodeOne] at h
    by_cases h1 : b < 0x80
    · rw [if_pos h1] at h
      simp only [Option.some.injEq, Prod.mk.injEq] at h
      obtain ⟨rfl, rfl⟩ := h
      refine ⟨?_, ?_, by simp only [List.length_cons]; omega⟩
      · rw [encChar_ascii h1]; rfl
      · unfold validChar; omega
    · rw [if_neg h1] at h
      by_cases h2 : b < 0xC2
      · rw [if_pos h2] at h; simp at h
      · rw [if_neg h2] at h
        by_cases h3 : b < 0xE0
        · rw [if_pos h3] at h
          cases bs with
          | nil => simp [decodeTwo] at h
          | cons b1 bs1 =>
            simp only [decodeTwo] at h
            by_cases h4 : b1 / 0x40 = 2
            · rw [if_pos h4] at h
              simp only [Option.some.injEq, Prod.mk.injEq] at h
              obtain ⟨rfl, rfl⟩ := h
              refine ⟨?_, ?_, by simp only [List.length_cons]; omega⟩
              · unfold encChar
                rw [if_neg (by omega), if_pos (by omega)]
                simp only [List.cons_append, List.nil_append, List.cons.injEq]
                refine ⟨by omega, by omega, trivial⟩
              · unfold validChar; omega
            · rw [if_neg h4] at h; simp at h
        · rw [if_neg h3] at h
          by_cases h5 : b < 0xF0
          · rw [if_pos h5] at h
            match bs with
            | [] => simp [decodeThree] at h
            | [b1] => simp [decodeThree] at h
            | b1 :: b2 :: bs2 =>
              simp only [decodeThree] at h
              by_cases h6 : b1 / 0x40 = 2 ∧ b2 / 0x40 = 2
              · rw [if_pos h6] at h
                by_cases h7 : (b - 0xE0) * 0x1000 + (b1 - 0x80) * 0x40 + (b2 - 0x80) < 0x800 ∨
                    (0xD800 ≤ (b - 0xE0) * 0x1000 + (b1 - 0x80) * 0x40 + (b2 - 0x80) ∧
                     (b - 0xE0) * 0x1000 + (b1 - 0x80) * 0x40 + (b2 - 0x80) < 0xE000)
                · rw [if_pos h7] at h; simp at h
                · rw [if_neg h7] at h
                  simp only [Option.some.injEq, Prod.mk.injEq] at h
                  obtain ⟨rfl, rfl⟩ := h
                  obtain ⟨h6a, h6b⟩ := h6
                  refine ⟨?_, ?_, by simp only [List.length_cons]; omega⟩
                  · unfold encChar
                    rw [if_neg (by omega), if_neg (by omega), if_pos (by omega)]
                    simp only [List.cons_append, List.nil_append, List.cons.injEq]
                    refine ⟨by omega, by omega, by omega, trivial⟩
                  · unfold validChar; omega
              · rw [if_neg h6] at h; simp at h
          · rw [if_neg h5] at h
            by_cases h8 : b < 0xF5
            · rw [if_pos h8] at h
              match bs with
              | [] => simp [decodeFour] at h
              | [b1] => simp [decodeFour] at h
              | [b1, b2] => simp [decodeFour] at h
              | b1 :: b2 :: b3 :: bs3 =>
                simp only [decodeFour] at h
                by_cases h9 : b1 / 0x40 = 2 ∧ b2 / 0x40 = 2 ∧ b3 / 0x40 = 2
                · rw [if_pos h9] at h
                  by_cases h10 : (b - 0xF0) * 0x40000 + (b1 - 0x80) * 0x1000 +
                        (b2 - 0x80) * 0x40 + (b3 - 0x80) < 0x10000 ∨
                      0x10FFFF < (b - 0xF0) * 0x40000 + (b1 - 0x80) * 0x1000 +
                        (b2 - 0x80) * 0x40 + (b3 - 0x80)
                  · rw [if_pos h10] at h; simp at h
                  · rw [if_neg h10] at h
                    simp only [Option.some.injEq, Prod.mk.injEq] at h
                    obtain ⟨rfl, rfl⟩ := h
                    obtain ⟨h9a, h9b, h9c⟩ := h9
                    refine ⟨?_, ?_, by simp only [List.length_cons]; omega⟩
                    · unfold encChar
                      rw [if_neg (by omega), if_neg (by omega), if_neg (by omega)]
                      simp only [List.cons_append, List.nil_append, List.cons.injEq]
                      refine ⟨by omega, by omega, by omega, by omega, trivial⟩
                    · unfold validChar; omega
                · rw [if_neg h9] at h; simp at h
            · rw [if_neg h8] at h; simp at h

theorem decodeOne_encChar {c : Nat} (hc : validChar c) (rest : ByteSeq) :
    decodeOne (encChar c ++ rest) = some (c, rest) := by
  obtain ⟨hlt, hsur⟩ := hc
  unfold encChar
  by_cases h1 : c < 0x80
  · rw [if_pos h1]
    simp only [List.cons_append, List.nil_append, decodeOne]
    rw [if_pos h1]
  · rw [if_neg h1]
    by_cases h2 : c < 0x800
    · rw [if_pos h2]
      simp only [List.cons_append, List.nil_append, decodeOne]
      rw [if_neg (by omega), if_neg (by omega), if_pos (by omega)]
      simp only [decodeTwo]
      rw [if_pos (by omega)]
      simp only [Option.some.injEq, Prod.mk.injEq]
      refine ⟨by omega, trivial⟩
    · rw [if_neg h2]
      by_cases h3 : c < 0x10000
      · rw [if_pos h3]
        simp only [List.cons_append, List.nil_append, decodeOne]
        rw [if_neg (by omega), if_neg (by omega), if_neg (by omega), if_pos (by omega)]
        simp only [decodeThree]
        rw [if_pos (by constructor <;> omega), if_neg (by omega)]
        simp only [Option.some.injEq, Prod.mk.injEq]
        refine ⟨by omega, trivial⟩
      · rw [if_neg h3]
        simp only [List.cons_append, List.nil_append, decodeOne]
        rw [if_neg (by omega), if_neg (by omega), if_neg (by omega), if_neg (by omega),
            if_pos (by omega)]
        simp only [decodeFour]
        rw [if_pos (by refine ⟨by omega, by omega, by omega⟩), if_neg (by omega)]
        simp only [Option.some.injEq, Prod.mk.injEq]
        refine ⟨by omega, trivial⟩

theorem pyDecodeAux_congr : ∀ (f1 : Nat) (bs : ByteSeq) (f2 : Nat),
    bs.length < f1 → bs.length < f2 → pyDecodeAux f1 bs = pyDecodeAux f2 bs := by
  intro f1
  induction f1 with
  | zero => intro bs f2 h1 _; omega
  | succ f ih =>
    intro bs f2 h1 h2
    obtain ⟨f2', rfl⟩ : ∃ k, f2 = k + 1 := ⟨f2 - 1, by omega⟩
    cases bs with
    | nil => rfl
    | cons b bs' =>
      simp only [pyDecodeAux]
      cases hd : decodeOne (b :: bs') with
      | none => rfl
      | some p =>
        obtain ⟨c, rest⟩ := p
        obtain ⟨_, _, hlen⟩ := decodeOne_sound hd
        simp only [List.length_cons] at h1 h2 hlen
        simp only [ih rest f2' (by omega) (by omega)]

theorem pyDecodeAux_sound : ∀ (f : Nat) (bs : ByteSeq) (s : PyStr),
    pyDecodeAux f bs = some s → pyEncode s = bs ∧ ∀ c ∈ s, validChar c := by
  intro f
  induction f with
  | zero => intro bs s h; simp [pyDecodeAux] at h
  | succ f ih =>
    intro bs s h
    cases bs with
    | nil =>
      simp only [pyDecodeAux, Option.some.injEq] at h
      subst h
      exact ⟨rfl, by simp⟩
    | cons b bs' =>
      simp only [pyDecodeAux] at h
      cases hd : decodeOne (b :: bs') with
      | none => rw [hd] at h; simp at h
      | some p =>
        obtain ⟨c, rest⟩ := p
        rw [hd] at h
        simp only [Option.map_eq_some'] at h
        obtain ⟨s', hs', rfl⟩ := h
        obtain ⟨henc, hvalid⟩ := ih rest s' hs'
        obtain ⟨hbs, hc, _⟩ := decodeOne_sound hd
        refine ⟨?_, ?_⟩
        · rw [pyEncode_cons, henc, hbs]
        · intro x hx
          rcases List.mem_cons.mp hx with rfl | hx
          · exact hc
          · exact hvalid x hx

theorem pyDecode_sound {bs : ByteSeq} {s : PyStr} (h : pyDecode bs = some s) :
    pyEncode s = bs ∧ ∀ c ∈ s, validChar c :=
  pyDecodeAux_sound _ bs s h

theorem pyDecode_encChar_cons {c : Nat} (hc : validChar c) (X : ByteSeq) :
    pyDecode (encChar c ++ X) = (pyDecode X).map (c :: ·) := by
  rcases he : encChar c ++ X with _ | ⟨b, bs⟩
  · exact absurd (List.append_eq_nil.mp he).1 (encChar_ne_nil c)
  · have hdec : decodeOne (b :: bs) = some (c, X) := by
      rw [← he]; exact decodeOne_encChar hc X
    unfold pyDecode
    simp only [pyDecodeAux, hdec]
    congr 1
    have hlen : X.length < (b :: bs).length := (decodeOne_sound hdec).2.2
    exact pyDecodeAux_congr _ X _ hlen (by omega)

theorem pyDecodeAux_append : ∀ (f : Nat) (bs : ByteSeq) (s : PyStr)
    (cs : ByteSeq) (t : PyStr), pyDecodeAux f bs = some s →
    pyDecode cs = some t → pyDecode (bs ++ cs) = some (s ++ t) := by
  intro f
  induction f with
  | zero => intro bs s cs t h _; simp [pyDecodeAux] at h
  | succ f ih =>
    intro bs s cs t h hcs
    cases bs with
    | nil =>
      simp only [pyDecodeAux, Option.some.injEq] at h
      subst h
      simpa using hcs
    | cons b bs' =>
      simp only [pyDecodeAux] at h
      cases hd : decodeOne (b :: bs') with
      | none => rw [hd] at h; simp at h
      | some p =>
        obtain ⟨c, rest⟩ := p
        rw [hd] at h
        simp only [Option.map_eq_some'] at h
        obtain ⟨s', hs', rfl⟩ := h
        obtain ⟨hbs, hc, _⟩ := decodeOne_sound hd
        have hrec := ih rest s' cs t hs' hcs
        rw [hbs, List.append_assoc, pyDecode_encChar_cons hc, hrec]
        rfl

theorem pyDecode_append {bs cs : ByteSeq} {s t : PyStr}
    (h1 : pyDecode bs = some s) (h2 : pyDecode cs = some t) :
    pyDecode (bs ++ cs) = some (s ++ t) :=
  pyDecodeAux_append _ bs s cs t h1 h2

theorem pyDecode_encode {s : PyStr} (h : ∀ c ∈ s, validChar c) :
    pyDecode (pyEncode s) = some s := by
  induction s with
  | nil => rfl
  | cons c cs ih =>
    rw [pyEncode_cons, pyDecode_encChar_cons (h c (by simp)),
        ih (fun x hx => h x (by simp [hx]))]
    rfl

/-! ## Wire-length arithmetic -/

theorem encChar_44 : encChar 44 = [44] := rfl

theorem encChar_48 : encChar 48 = [48] := rfl

theorem encChar_49 : encChar 49 = [49] := rfl

theorem pyEncode_py_str_of_int (i : Int) : pyEncode (py_str_of_int i) = py_str_of_int i :=
  pyEncode_ascii py_str_of_int_ascii

theorem tentative_header_len (ip : PyStr) (port ttl : Int) (id : PyStr) (off : Int) :
    (pyEncode (tentative_header ip port ttl id off)).length =
      (pyEncode ip).length + (py_str_of_int port).length +
      (py_str_of_int ttl).length + (pyEncode id).length +
      (py_str_of_int off).length + 16 := by
  unfold tentative_header
  simp only [pyEncode_append, pyEncode_cons, pyEncode_nil, pyEncode_py_str_of_int,
    encChar_44, encChar_48, encChar_49, List.length_append, List.length_cons,
    List.length_nil]
  omega

theorem to_string_enc_len (f : IPHeader) :
    (pyEncode f.to_string).length =
      (pyEncode f.ip_address).length + (py_str_of_int f.port).length +
      (py_str_of_int f.ttl).length + (pyEncode f.id).length +
      (py_str_of_int f.offset).length + (pyEncode f.size).length +
      (pyEncode f.msg).length + 8 := by
  obtain ⟨ip, port, ttl, id, off, size, flag, msg⟩ := f
  cases flag <;>
  · simp [IPHeader.to_string, pyEncode_append, pyEncode_cons, pyEncode_nil,
      pyEncode_py_str_of_int, encChar_44, encChar_48, encChar_49]
    omega

theorem pyEncode_generate_size (L : Nat) :
    pyEncode (generate_ip_header_size L) = generate_ip_header_size L := by
  apply pyEncode_ascii
  intro c hc
  have := generate_size_digits c hc
  omega

/-- Wire length of a fragment as built by the loop: the tentative-header
length at its offset plus its payload byte length (its size field is 8
digits since the payload is shorter than `10^8` bytes, its flag one
character either way). -/
theorem fragment_wire_len (ip : PyStr) (port ttl : Int) (id : PyStr) (off : Int)
    (flag : Bool) (m : PyStr) (hm : (pyEncode m).length < 10 ^ 8) :
    (pyEncode (IPHeader.to_string
        ⟨ip, port, ttl, id, off, generate_ip_header_size (pyEncode m).length, flag, m⟩)).length =
      (pyEncode (tentative_header ip port ttl id off)).length + (pyEncode m).length := by
  rw [to_string_enc_len, tentative_header_len]
  simp only [pyEncode_generate_size]
  rw [generate_size_length hm]
  omega

theorem py_str_of_int_len_mono {i j : Int} (h0 : 0 ≤ i) (hij : i ≤ j) :
    (py_str_of_int i).length ≤ (py_str_of_int j).length := by
  unfold py_str_of_int
  rw [if_neg (by omega), if_neg (by omega)]
  exact natToStr_len_mono (by omega)

/-- The tentative header only grows as the fragment offset advances. -/
theorem tentative_header_len_mono (ip : PyStr) (port ttl : Int) (id : PyStr)
    {base : Int} (hbase : 0 ≤ base) {c c' : Nat} (hcc : c ≤ c') :
    (pyEncode (tentative_header ip port ttl id (base + c))).length ≤
      (pyEncode (tentative_header ip port ttl id (base + c'))).length := by
  rw [tentative_header_len, tentative_header_len]
  have := py_str_of_int_len_mono (i := base + c) (j := base + c') (by omega) (by omega)
  omega

/-! ## Slice lemmas -/

theorem pySlice_nonneg {l : ByteSeq} {start : Nat} {stop : Int} (h : 0 ≤ stop) :
    pySlice l start stop = (l.take (min stop.toNat l.length)).drop start := by
  unfold pySlice
  rw [if_neg (not_lt.mpr h)]

theorem pySlice_neg {l : ByteSeq} {start : Nat} {stop : Int} (h : stop < 0) :
    pySlice l start stop = (l.take (((l.length : Int) + stop).toNat)).drop start := by
  unfold pySlice
  rw [if_pos h]

theorem take_drop_length (l : ByteSeq) (s c : Nat) :
    ((l.take s).drop c).length = min s l.length - c := by
  rw [List.length_drop, List.length_take]

theorem take_drop_append_drop {l : ByteSeq} {s c : Nat} (hcs : c ≤ s) :
    (l.take s).drop c ++ l.drop s = l.drop c := by
  rw [List.drop_take s c l]
  have h1 : l.drop c = (l.drop c).take (s - c) ++ (l.drop c).drop (s - c) :=
    (List.take_append_drop _ _).symm
  have h2 : (l.drop c).drop (s - c) = l.drop s := by
    rw [List.drop_drop]
    congr 1
    omega
  rw [h2] at h1
  exact h1.symm

/-! ## Fragmentation loop: stuck states never return -/

/-- Once the payload budget `mtu - fragment_header_len` is non-positive at
a cursor strictly inside the payload, the loop never reaches `done`: a
non-negative slice stop yields an empty slice (`nonterm` — the Python loop
repeats the iteration forever), and a negative stop (Python slices from
the end) advances the cursor but keeps it strictly inside the payload with
a budget that has only shrunk further, since the header grows with the
offset. -/
theorem fragment_loop_stuck (ip : PyStr) (port ttl : Int) (id : PyStr)
    {base : Int} (hbase : 0 ≤ base) (msgBytes : ByteSeq) (mtu : Int) :
    ∀ (fuel cursor : Nat) (acc frags : List IPHeader),
    cursor < msgBytes.length →
    mtu - ((pyEncode (tentative_header ip port ttl id (base + cursor))).length : Int) ≤ 0 →
    fragment_loop ip port ttl id base msgBytes mtu fuel cursor acc ≠ .done frags := by
  intro fuel
  induction fuel with
  | zero => intro cursor acc frags _ _ h; exact absurd h (by simp [fragment_loop])
  | succ fuel ih =>
    intro cursor acc frags hcur hbud h
    simp only [fragment_loop] at h
    rw [if_pos hcur] at h
    set H : Int := ((pyEncode (tentative_header ip port ttl id (base + cursor))).length : Int)
      with hH
    by_cases hstop : (cursor : Int) + (mtu - H) < 0
    · rw [pySlice_neg hstop] at h
      set stopIdx : Nat := (((msgBytes.length : Int)) + ((cursor : Int) + (mtu - H))).toNat
        with hstopIdx
      by_cases hempty : ((msgBytes.take stopIdx).drop cursor).length = 0
      · rw [List.eq_nil_of_length_eq_zero hempty] at h
        simp only [pyDecode, pyDecodeAux, List.length_nil] at h
        exact absurd h (by simp)
      · have hlen := take_drop_length msgBytes stopIdx cursor
        have hstoplt : stopIdx < msgBytes.length := by omega
        have hcur' : cursor < stopIdx := by omega
        have hlen2 : ((msgBytes.take stopIdx).drop cursor).length = stopIdx - cursor := by
          omega
        cases hd : pyDecode ((msgBytes.take stopIdx).drop cursor) with
        | none => rw [hd] at h; exact absurd h (by simp)
        | some m =>
          rw [hd] at h
          simp only [if_neg hempty] at h
          have hmono := tentative_header_len_mono ip port ttl id hbase
            (show cursor ≤ cursor + ((msgBytes.take stopIdx).drop cursor).length by omega)
          rw [hH] at hbud
          exact ih _ _ _ (by omega) (by omega) h
    · rw [pySlice_nonneg (by omega)] at h
      have hstopIdx : min ((cursor : Int) + (mtu - H)).toNat msgBytes.length ≤ cursor := by
        omega
      have hempty : ((msgBytes.take
          (min ((cursor : Int) + (mtu - H)).toNat msgBytes.length)).drop cursor).length = 0 := by
        rw [take_drop_length]
        omega
      rw [List.eq_nil_of_length_eq_zero hempty] at h
      simp only [pyDecode, pyDecodeAux, List.length_nil] at h
      exact absurd h (by simp)

/-! ## Fragmentation loop: characterization of completed runs -/

/-- Offsets of a fragment train advance by the payload byte length of each
fragment, starting at `o`. -/
def offsets_sizes_chain : Int → List IPHeader → Prop
  | _, [] => True
  | o, f :: fs =>
    f.offset = o ∧ offsets_sizes_chain (o + ((pyEncode f.msg).length : Int)) fs

/-- Everything a completed (`done`) run of the fragmentation loop
guarantees about the fragments it accumulated past `acc`: they partition
the remaining payload bytes in order, their offsets chain from the current
wire offset, they inherit the header fields with flag `1`, each is
nonempty, decodes back to itself, carries its byte length as its size
field, and fits in the MTU. -/
theorem fragment_loop_done (ip : PyStr) (port ttl : Int) (id : PyStr)
    {base : Int} (hbase : 0 ≤ base) (msgBytes : ByteSeq) (mtu : Int)
    (hsmall : msgBytes.length < 10 ^ 8) :
    ∀ (fuel cursor : Nat) (acc frags : List IPHeader), cursor ≤ msgBytes.length →
    fragment_loop ip port ttl id base msgBytes mtu fuel cursor acc = .done frags →
    ∃ tail, frags = acc ++ tail ∧
      ((tail.map fun f => pyEncode f.msg).flatten = msgBytes.drop cursor) ∧
      offsets_sizes_chain (base + cursor) tail ∧
      ∀ f ∈ tail, f.ip_address = ip ∧ f.port = port ∧ f.ttl = ttl ∧ f.id = id ∧
        f.flag = true ∧ f.msg ≠ [] ∧ pyDecode (pyEncode f.msg) = some f.msg ∧
        f.size = generate_ip_header_size (pyEncode f.msg).length ∧
        (pyEncode f.msg).length < 10 ^ 8 ∧
        ((pyEncode f.to_string).length : Int) ≤ mtu := by
  intro fuel
  induction fuel with
  | zero =>
    intro cursor acc frags _ h
    exact absurd h (by simp [fragment_loop])
  | succ fuel ih =>
    intro cursor acc frags hcur h
    by_cases hlt : cursor < msgBytes.length
    · by_cases hbud :
        mtu - ((pyEncode (tentative_header ip port ttl id (base + cursor))).length : Int) ≤ 0
      · exact absurd h
          (fragment_loop_stuck ip port ttl id hbase msgBytes mtu _ _ _ _ hlt hbud)
      · push_neg at hbud
        simp only [fragment_loop] at h
        rw [if_pos hlt] at h
        rw [pySlice_nonneg (by omega)] at h
        set stopIdx : Nat := min ((cursor : Int) +
            (mtu - ((pyEncode (tentative_header ip port ttl id (base + cursor))).length : Int))).toNat
            msgBytes.length
          with hstopIdx
        have hstop1 : cursor < stopIdx := by omega
        have hstop2 : stopIdx ≤ msgBytes.length := by omega
        have hlen : ((msgBytes.take stopIdx).drop cursor).length = stopIdx - cursor :=
          by rw [take_drop_length]; omega
        have hlenpos : ((msgBytes.take stopIdx).drop cursor).length ≠ 0 := by omega
        have hlenbud : ((msgBytes.take stopIdx).drop cursor).length ≤
            (mtu - ((pyEncode (tentative_header ip port ttl id
              (base + cursor))).length : Int)).toNat := by
          omega
        cases hd : pyDecode ((msgBytes.take stopIdx).drop cursor) with
        | none => rw [hd] at h; exact absurd h (by simp)
        | some m =>
          rw [hd] at h
          simp only [if_neg hlenpos] at h
          obtain ⟨henc, hvalid⟩ := pyDecode_sound hd
          obtain ⟨tail', htail', hflat, hchain, hmem⟩ :=
            ih (cursor + ((msgBytes.take stopIdx).drop cursor).length)
              (acc ++ [⟨ip, port, ttl, id, base + cursor,
                generate_ip_header_size ((msgBytes.take stopIdx).drop cursor).length,
                true, m⟩]) frags (by omega) h
          refine ⟨⟨ip, port, ttl, id, base + cursor,
            generate_ip_header_size ((msgBytes.take stopIdx).drop cursor).length,
            true, m⟩ :: tail', by rw [htail']; simp, ?_, ?_, ?_⟩
          · simp only [List.map_cons, List.flatten_cons, hflat]
            simp only [henc]
            rw [hlen, show cursor + (stopIdx - cursor) = stopIdx from by omega]
            exact take_drop_append_drop (by omega)
          · refine ⟨rfl, ?_⟩
            have hcast : (base + (cursor : Int)) + ((pyEncode
                (⟨ip, port, ttl, id, base + cursor,
                  generate_ip_header_size ((msgBytes.take stopIdx).drop cursor).length,
                  true, m⟩ : IPHeader).msg).length : Int) =
                base + ((cursor + ((msgBytes.take stopIdx).drop cursor).length : Nat) : Int) := by
              show (base + (cursor : Int)) + ((pyEncode m).length : Int) = _
              rw [henc]
              push_cast
              ring
            rw [hcast]
            exact hchain
          · intro f hf
            rcases List.mem_cons.mp hf with rfl | hf
            · refine ⟨rfl, rfl, rfl, rfl, rfl, ?_, ?_, ?_, ?_, ?_⟩
              · intro hm
                have hm2 : m = [] := hm
                rw [hm2, pyEncode_nil] at henc
                exact hlenpos (by rw [← henc]; rfl)
              · show pyDecode (pyEncode m) = some m
                rw [henc]
                exact hd
              · show generate_ip_header_size ((msgBytes.take stopIdx).drop cursor).length =
                  generate_ip_header_size (pyEncode m).length
                rw [henc]
              · show (pyEncode m).length < 10 ^ 8
                rw [henc]
                omega
              · show ((pyEncode (IPHeader.to_string ⟨ip, port, ttl, id, base + cursor,
                  generate_ip_header_size ((msgBytes.take stopIdx).drop cursor).length,
                  true, m⟩)).length : Int) ≤ mtu
                rw [← henc]
                rw [fragment_wire_len ip port ttl id (base + cursor) true m
                  (by rw [henc]; omega)]
                have hE : (pyEncode m).length = stopIdx - cursor := by
                  rw [henc]; exact hlen
                omega
            · exact hmem f hf
    · have hceq : cursor = msgBytes.length := by omega
      simp only [fragment_loop] at h
      rw [if_neg hlt] at h
      cases h
      refine ⟨[], by simp, ?_, trivial, by simp⟩
      rw [hceq, List.drop_length]
      simp

/-! ## Last-flag fix-up lemmas -/

theorem set_last_map {α : Type} (F : IPHeader → α)
    (hF : ∀ f : IPHeader,
      F ⟨f.ip_address, f.port, f.ttl, f.id, f.offset, f.size, false, f.msg⟩ = F f) :
    ∀ l : List IPHeader, (set_last_flag_false l).map F = l.map F := by
  intro l
  induction l with
  | nil => rfl
  | cons f fs ih =>
    cases fs with
    | nil => simp [set_last_flag_false, hF f]
    | cons g gs =>
      simp only [set_last_flag_false, List.map_cons] at ih ⊢
      rw [ih]

theorem set_last_chain : ∀ (o : Int) (l : List IPHeader),
    offsets_sizes_chain o (set_last_flag_false l) ↔ offsets_sizes_chain o l := by
  intro o l
  induction l generalizing o with
  | nil => exact Iff.rfl
  | cons f fs ih =>
    cases fs with
    | nil => simp [set_last_flag_false, offsets_sizes_chain]
    | cons g gs =>
      simp only [set_last_flag_false, offsets_sizes_chain, ih]

theorem set_last_mem : ∀ (l : List IPHeader), ∀ g ∈ set_last_flag_false l,
    ∃ f ∈ l, g.ip_address = f.ip_address ∧ g.port = f.port ∧ g.ttl = f.ttl ∧
      g.id = f.id ∧ g.offset = f.offset ∧ g.size = f.size ∧ g.msg = f.msg := by
  intro l
  induction l with
  | nil => intro g hg; simp [set_last_flag_false] at hg
  | cons f fs ih =>
    cases fs with
    | nil =>
      intro g hg
      simp only [set_last_flag_false, List.mem_singleton] at hg
      subst hg
      exact ⟨f, by simp, rfl, rfl, rfl, rfl, rfl, rfl, rfl⟩
    | cons x xs =>
      intro g hg
      simp only [set_last_flag_false, List.mem_cons] at hg
      rcases hg with rfl | hg
      · exact ⟨g, by simp, rfl, rfl, rfl, rfl, rfl, rfl, rfl⟩
      · obtain ⟨f', hf', hfields⟩ := ih g hg
        exact ⟨f', by simp [hf'], hfields⟩

theorem to_string_enc_len_eq {f g : IPHeader} (h1 : g.ip_address = f.ip_address)
    (h2 : g.port = f.port) (h3 : g.ttl = f.ttl) (h4 : g.id = f.id)
    (h5 : g.offset = f.offset) (h6 : g.size = f.size) (h7 : g.msg = f.msg) :
    (pyEncode g.to_string).length = (pyEncode f.to_string).length := by
  rw [to_string_enc_len, to_string_enc_len, h1, h2, h3, h4, h5, h6, h7]

theorem parse_all_of_roundtrip : ∀ (L : List IPHeader),
    (∀ g ∈ L, parse_ip_header g.to_string = .ok g) →
    parse_all (L.map IPHeader.to_string) = .ok L := by
  intro L
  induction L with
  | nil => intro _; rfl
  | cons g gs ih =>
    intro h
    simp only [List.map_cons, parse_all, h g (by simp),
      ih (fun x hx => h x (by simp [hx]))]

theorem pyDecode_flatten_encode : ∀ (ms : List PyStr),
    (∀ m ∈ ms, pyDecode (pyEncode m) = some m) →
    pyDecode ((ms.map pyEncode).flatten) = some ms.flatten := by
  intro ms
  induction ms with
  | nil => intro _; rfl
  | cons m rest ih =>
    intro h
    simp only [List.map_cons, List.flatten_cons]
    rw [pyDecode_append (h m (by simp)) (ih (fun x hx => h x (by simp [hx])))]

/-- Shared conclusion for the fragmenter theorems: a fragment train
satisfying the loop facts (with or without the last-flag fix-up) maps to
wire strings that are each MTU-bounded, parse back to the train, and whose
payloads concatenate to the original payload. -/
theorem fragment_output_spec (d : IPHeader) (M : Int) (tail hs : List IPHeader)
    (hip : 44 ∉ d.ip_address) (hid : 44 ∉ d.id) (hmsg44 : 44 ∉ d.msg)
    (hvalid : ∀ c ∈ d.msg, validChar c)
    (hflat : (tail.map fun f => pyEncode f.msg).flatten = pyEncode d.msg)
    (hmem : ∀ f ∈ tail, f.ip_address = d.ip_address ∧ f.port = d.port ∧
      f.ttl = d.ttl ∧ f.id = d.id ∧ f.flag = true ∧ f.msg ≠ [] ∧
      pyDecode (pyEncode f.msg) = some f.msg ∧
      f.size = generate_ip_header_size (pyEncode f.msg).length ∧
      (pyEncode f.msg).length < 10 ^ 8 ∧ ((pyEncode f.to_string).length : Int) ≤ M)
    (hhs : hs = tail ∨ hs = set_last_flag_false tail) :
    (∀ f ∈ hs.map IPHeader.to_string, ((pyEncode f).length : Int) ≤ M) ∧
    parse_all (hs.map IPHeader.to_string) = .ok hs ∧
    (hs.map fun f => f.msg).flatten = d.msg := by
  have hfields : ∀ g ∈ hs, ∃ f ∈ tail, g.ip_address = f.ip_address ∧
      g.port = f.port ∧ g.ttl = f.ttl ∧ g.id = f.id ∧ g.offset = f.offset ∧
      g.size = f.size ∧ g.msg = f.msg := by
    rcases hhs with rfl | rfl
    · intro g hg; exact ⟨g, hg, rfl, rfl, rfl, rfl, rfl, rfl, rfl⟩
    · exact set_last_mem tail
  have hmsgmap : hs.map (fun f => pyEncode f.msg) = tail.map (fun f => pyEncode f.msg) := by
    rcases hhs with rfl | rfl
    · rfl
    · exact set_last_map (fun f => pyEncode f.msg) (fun f => rfl) tail
  refine ⟨?_, ?_, ?_⟩
  · intro w hw
    obtain ⟨g, hg, rfl⟩ := List.mem_map.mp hw
    obtain ⟨f, hf, e1, e2, e3, e4, e5, e6, e7⟩ := hfields g hg
    obtain ⟨f1, f2, f3, f4, f5, f6, f7, f8, f9, f10⟩ := hmem f hf
    have heq := to_string_enc_len_eq e1 e2 e3 e4 e5 e6 e7
    omega
  · apply parse_all_of_roundtrip
    intro g hg
    obtain ⟨f, hf, e1, e2, e3, e4, e5, e6, e7⟩ := hfields g hg
    obtain ⟨f1, f2, f3, f4, f5, f6, f7, f8, f9, f10⟩ := hmem f hf
    apply parse_to_string_roundtrip
    · rw [e1, f1]; exact hip
    · rw [e4, f4]; exact hid
    · rw [e6, f8]; exact generate_size_no_comma
    · rw [e7]
      intro hmem44
      have h1 : (44 : Nat) ∈ pyEncode f.msg := comma_mem_pyEncode.mpr hmem44
      have h2 : (44 : Nat) ∈ pyEncode d.msg := by
        rw [← hflat]
        exact List.mem_flatten.mpr ⟨pyEncode f.msg, List.mem_map.mpr ⟨f, hf, rfl⟩, h1⟩
      exact hmsg44 (comma_mem_pyEncode.mp h2)
  · have hdec : ∀ m ∈ hs.map (fun f => f.msg), pyDecode (pyEncode m) = some m := by
      intro m hm
      obtain ⟨g, hg, rfl⟩ := List.mem_map.mp hm
      obtain ⟨f, hf, _, _, _, _, _, _, e7⟩ := hfields g hg
      obtain ⟨_, _, _, _, _, _, f7, _, _, _⟩ := hmem f hf
      rw [e7]
      exact f7
    have h1 := pyDecode_flatten_encode (hs.map fun f => f.msg) hdec
    have h2 : ((hs.map fun f => f.msg).map pyEncode).flatten = pyEncode d.msg := by
      rw [List.map_map]
      rw [show (pyEncode ∘ fun f : IPHeader => f.msg) =
        (fun f : IPHeader => pyEncode f.msg) from rfl]
      rw [hmsgmap, hflat]
    rw [h2, pyDecode_encode hvalid] at h1
    exact (Option.some.inj h1).symm

/-- C4 amended. For every datagram `d` satisfying the section-3 invariants
(comma-free address, id and size fields, non-negative offset, payload
shorter than `10^8` bytes and made of encodable code points) whose payload
is also comma-free, and every MTU `M`: whenever
`fragment_ip_packet(encode(d), M)` terminates with a list `l` (which the
C10 counterexample shows can fail even for `M ≥ minimum_header_bytes(d)+1`,
and the C9 counterexample shows can instead raise), every wire fragment in
`l` is at most `M` bytes long and the fragment payloads, read back by the
decoder in emitted (offset) order, concatenate to exactly d.msg. The
original claim fails for payloads containing commas because the decoder
truncates them (see the counterexample). -/
theorem C4_amended_fragment_bound_and_reassembly (d : IPHeader) (M : Int)
    (l : List PyStr)
    (hip : 44 ∉ d.ip_address) (hid : 44 ∉ d.id) (hsize44 : 44 ∉ d.size)
    (hmsg44 : 44 ∉ d.msg) (hoff : 0 ≤ d.offset)
    (hsmall : (pyEncode d.msg).length < 10 ^ 8)
    (hvalid : ∀ c ∈ d.msg, validChar c)
    (hok : fragment_ip_packet d.to_string M = .ok l) :
    (∀ f ∈ l, ((pyEncode f).length : Int) ≤ M) ∧
    ∃ hs, parse_all l = .ok hs ∧ (hs.map fun f => f.msg).flatten = d.msg := by
  have hparse : parse_ip_header d.to_string = .ok d :=
    parse_to_string_roundtrip d hip hid hsize44 hmsg44
  unfold fragment_ip_packet at hok
  by_cases hfit : ((pyEncode d.to_string).length : Int) ≤ M
  · rw [if_pos hfit] at hok
    cases hok
    refine ⟨?_, [d], ?_, by simp⟩
    · intro f hf
      rcases List.mem_singleton.mp hf with rfl
      exact hfit
    · have : parse_all ([d].map IPHeader.to_string) = .ok [d] :=
        parse_all_of_roundtrip [d] (by intro g hg; rcases List.mem_singleton.mp hg with rfl; exact hparse)
      simpa using this
  · rw [if_neg hfit] at hok
    simp only [hparse] at hok
    cases hloop : fragment_loop d.ip_address d.port d.ttl d.id d.offset
        (pyEncode d.msg) M ((pyEncode d.msg).length + 1) 0 [] with
    | nonterm => rw [hloop] at hok; exact absurd hok (by simp)
    | exn e => rw [hloop] at hok; exact absurd hok (by simp)
    | done frags =>
      simp only [hloop] at hok
      obtain ⟨tail, htail, hflat, hchain, hmem⟩ :=
        fragment_loop_done d.ip_address d.port d.ttl d.id hoff (pyEncode d.msg) M
          hsmall _ 0 [] frags (by omega) hloop
      simp only [List.nil_append] at htail
      subst htail
      rw [List.drop_zero] at hflat
      by_cases hflag : d.flag
      · rw [if_pos hflag] at hok
        cases hok
        obtain ⟨hbound, hparseall, hmsgs⟩ :=
          fragment_output_spec d M frags frags hip hid hmsg44 hvalid hflat hmem (Or.inl rfl)
        exact ⟨hbound, frags, hparseall, hmsgs⟩
      · rw [if_neg hflag] at hok
        cases frags with
        | nil => exact absurd hok (by simp)
        | cons t ts =>
          have hok2 : FragResult.ok ((set_last_flag_false (t :: ts)).map IPHeader.to_string) =
              FragResult.ok l := hok
          cases hok2
          obtain ⟨hbound, hparseall, hmsgs⟩ :=
            fragment_output_spec d M (t :: ts) (set_last_flag_false (t :: ts))
              hip hid hmsg44 hvalid hflat hmem (Or.inr rfl)
          exact ⟨hbound, set_last_flag_false (t :: ts), hparseall, hmsgs⟩

/-- Full structure of a successful `fragment_ip_packet` run on an encoded
header with comma-free fields: either the packet fit and is returned
unchanged, or the wire strings are the train accumulated by the loop, with
the last flag cleared exactly when the input flag was clear (in which case
the train is nonempty, since an empty train makes the fix-up raise). -/
theorem fragment_ok_structure (d : IPHeader) (M : Int) (l : List PyStr)
    (hip : 44 ∉ d.ip_address) (hid : 44 ∉ d.id) (hsize44 : 44 ∉ d.size)
    (hmsg44 : 44 ∉ d.msg) (hoff : 0 ≤ d.offset)
    (hsmall : (pyEncode d.msg).length < 10 ^ 8)
    (hok : fragment_ip_packet d.to_string M = .ok l) :
    (l = [d.to_string] ∧ ((pyEncode d.to_string).length : Int) ≤ M) ∨
    ∃ tail hs, l = hs.map IPHeader.to_string ∧
      ((d.flag = true ∧ hs = tail) ∨
       (d.flag = false ∧ hs = set_last_flag_false tail ∧ tail ≠ [])) ∧
      ((tail.map fun f => pyEncode f.msg).flatten = pyEncode d.msg) ∧
      offsets_sizes_chain d.offset tail ∧
      ∀ f ∈ tail, f.ip_address = d.ip_address ∧ f.port = d.port ∧
        f.ttl = d.ttl ∧ f.id = d.id ∧ f.flag = true ∧ f.msg ≠ [] ∧
        pyDecode (pyEncode f.msg) = some f.msg ∧
        f.size = generate_ip_header_size (pyEncode f.msg).length ∧
        (pyEncode f.msg).length < 10 ^ 8 ∧
        ((pyEncode f.to_string).length : Int) ≤ M := by
  have hparse : parse_ip_header d.to_string = .ok d :=
    parse_to_string_roundtrip d hip hid hsize44 hmsg44
  unfold fragment_ip_packet at hok
  by_cases hfit : ((pyEncode d.to_string).length : Int) ≤ M
  · rw [if_pos hfit] at hok
    cases hok
    exact Or.inl ⟨rfl, hfit⟩
  · rw [if_neg hfit] at hok
    simp only [hparse] at hok
    cases hloop : fragment_loop d.ip_address d.port d.ttl d.id d.offset
        (pyEncode d.msg) M ((pyEncode d.msg).length + 1) 0 [] with
    | nonterm => rw [hloop] at hok; exact absurd hok (by simp)
    | exn e => rw [hloop] at hok; exact absurd hok (by simp)
    | done frags =>
      simp only [hloop] at hok
      obtain ⟨tail, htail, hflat, hchain, hmem⟩ :=
        fragment_loop_done d.ip_address d.port d.ttl d.id hoff (pyEncode d.msg) M
          hsmall _ 0 [] frags (by omega) hloop
      simp only [List.nil_append] at htail
      subst htail
      rw [List.drop_zero] at hflat
      have hchain0 : offsets_sizes_chain d.offset frags := by
        have : d.offset + ((0 : Nat) : Int) = d.offset := by push_cast; ring
        rwa [this] at hchain
      by_cases hflag : d.flag
      · rw [if_pos hflag] at hok
        cases hok
        exact Or.inr ⟨frags, frags, rfl, Or.inl ⟨hflag, rfl⟩, hflat, hchain0, hmem⟩
      · rw [if_neg hflag] at hok
        cases frags with
        | nil => exact absurd hok (by simp)
        | cons t ts =>
          have hok2 : FragResult.ok ((set_last_flag_false (t :: ts)).map IPHeader.to_string) =
              FragResult.ok l := hok
          cases hok2
          exact Or.inr ⟨t :: ts, set_last_flag_false (t :: ts), rfl,
            Or.inr ⟨by simpa using hflag, rfl, by simp⟩, hflat, hchain0, hmem⟩

/-- C9 amended. Payload slicing in the fragmenter is byte-indexed: for a
datagram with comma-free fields whose payload holds any encodable code
points (multi-byte characters included), whenever
`fragment_ip_packet(encode(d), M)` returns a fragment list, the fragments
parse back and their payload byte sequences concatenate to exactly the
UTF-8 byte sequence of the original payload — byte-level reassembly. What
the original claim got wrong is "succeeds even when a split point falls
inside a multi-byte character": there `curr_frag_msg.decode()` raises
`UnicodeDecodeError` (see the counterexample), so success is only
guaranteed when every split lands on a character boundary. -/
theorem C9_amended_byte_indexed_slicing (d : IPHeader) (M : Int) (l : List PyStr)
    (hip : 44 ∉ d.ip_address) (hid : 44 ∉ d.id) (hsize44 : 44 ∉ d.size)
    (hmsg44 : 44 ∉ d.msg) (hoff : 0 ≤ d.offset)
    (hsmall : (pyEncode d.msg).length < 10 ^ 8)
    (hvalid : ∀ c ∈ d.msg, validChar c)
    (hok : fragment_ip_packet d.to_string M = .ok l) :
    ∃ hs, parse_all l = .ok hs ∧
      (hs.map fun f => pyEncode f.msg).flatten = pyEncode d.msg := by
  rcases fragment_ok_structure d M l hip hid hsize44 hmsg44 hoff hsmall hok with
    ⟨rfl, hfit⟩ | ⟨tail, hs, rfl, hhs, hflat, hchain, hmem⟩
  · have hall : parse_all [d.to_string] = Except.ok [d] := by
      have h1 : ([d].map IPHeader.to_string) = [d.to_string] := by simp
      rw [← h1]
      apply parse_all_of_roundtrip
      intro g hg
      rw [List.mem_singleton] at hg
      rw [hg]
      exact parse_to_string_roundtrip d hip hid hsize44 hmsg44
    exact ⟨[d], hall, by simp⟩
  · have hhs2 : hs = tail ∨ hs = set_last_flag_false tail := by
      rcases hhs with ⟨_, rfl⟩ | ⟨_, rfl, _⟩
      · exact Or.inl rfl
      · exact Or.inr rfl
    obtain ⟨hbound, hparseall, hmsgs⟩ :=
      fragment_output_spec d M tail hs hip hid hmsg44 hvalid hflat hmem hhs2
    refine ⟨hs, hparseall, ?_⟩
    have hmsgmap : hs.map (fun f => pyEncode f.msg) = tail.map (fun f => pyEncode f.msg) := by
      rcases hhs2 with rfl | rfl
      · rfl
      · exact set_last_map (fun f => pyEncode f.msg) (fun f => rfl) tail
    rw [hmsgmap, hflat]

/-- When the payload budget stays positive at every reachable offset, each
iteration of the fragmentation loop either raises or takes at least one
payload byte, so with fuel exceeding the remaining bytes the loop never
reaches the zero-progress (`nonterm`) state. -/
theorem fragment_loop_progress (ip : PyStr) (port ttl : Int) (id : PyStr)
    (base : Int) (msgBytes : ByteSeq) (mtu : Int)
    (hbud : ∀ c : Nat, c ≤ msgBytes.length →
      1 ≤ mtu - ((pyEncode (tentative_header ip port ttl id (base + c))).length : Int)) :
    ∀ (fuel cursor : Nat) (acc : List IPHeader), cursor ≤ msgBytes.length →
    msgBytes.length - cursor < fuel →
    fragment_loop ip port ttl id base msgBytes mtu fuel cursor acc ≠ .nonterm := by
  intro fuel
  induction fuel with
  | zero => intro cursor acc _ hfuel; omega
  | succ fuel ih =>
    intro cursor acc hcur hfuel
    by_cases hlt : cursor < msgBytes.length
    · have hb := hbud cursor (by omega)
      simp only [fragment_loop]
      rw [if_pos hlt]
      rw [pySlice_nonneg (by omega)]
      set stopIdx : Nat := min ((cursor : Int) +
          (mtu - ((pyEncode (tentative_header ip port ttl id (base + cursor))).length : Int))).toNat
          msgBytes.length
        with hstopIdx
      have hstop1 : cursor < stopIdx := by omega
      have hstop2 : stopIdx ≤ msgBytes.length := by omega
      have hlen : ((msgBytes.take stopIdx).drop cursor).length = stopIdx - cursor :=
        by rw [take_drop_length]; omega
      have hlenpos : ((msgBytes.take stopIdx).drop cursor).length ≠ 0 := by omega
      cases hd : pyDecode ((msgBytes.take stopIdx).drop cursor) with
      | none => simp
      | some m =>
        simp only [if_neg hlenpos]
        exact ih _ _ (by omega) (by omega)
    · simp only [fragment_loop]
      rw [if_neg hlt]
      simp

/-- C10 amended. Termination of `fragment_ip_packet` is not guaranteed by
`M ≥ minimum_header_bytes(d) + 1` (see the counterexample, where the
growing offset digits drive the payload budget to zero mid-payload and the
cursor stops advancing forever); it is guaranteed under the stronger bound
`M ≥ header_bytes_at(d, payload_byte_length) + 1`, i.e. one spare byte
beyond the tentative header at the largest offset the loop can reach,
because the header length is monotone in the offset, so every iteration
then either raises or consumes at least one payload byte. -/
theorem C10_amended_termination (d : IPHeader) (M : Int)
    (hip : 44 ∉ d.ip_address) (hid : 44 ∉ d.id) (hsize44 : 44 ∉ d.size)
    (hmsg44 : 44 ∉ d.msg) (hoff : 0 ≤ d.offset)
    (hM : (header_bytes_at d (pyEncode d.msg).length : Int) + 1 ≤ M) :
    fragment_ip_packet d.to_string M ≠ .nonterm := by
  have hparse : parse_ip_header d.to_string = .ok d :=
    parse_to_string_roundtrip d hip hid hsize44 hmsg44
  unfold fragment_ip_packet
  by_cases hfit : ((pyEncode d.to_string).length : Int) ≤ M
  · rw [if_pos hfit]
    simp
  · rw [if_neg hfit]
    simp only [hparse]
    cases hloop : fragment_loop d.ip_address d.port d.ttl d.id d.offset
        (pyEncode d.msg) M ((pyEncode d.msg).length + 1) 0 [] with
    | nonterm =>
      exfalso
      refine fragment_loop_progress d.ip_address d.port d.ttl d.id d.offset
        (pyEncode d.msg) M ?_ _ 0 [] (by omega) (by omega) hloop
      intro c hc
      have hmono := tentative_header_len_mono d.ip_address d.port d.ttl d.id hoff hc
      unfold header_bytes_at at hM
      omega
    | exn e => simp
    | done frags =>
      by_cases hflag : d.flag = true
      · simp [hflag]
      · cases frags <;> simp [hflag]

/-- Concrete terminating fragmentation input: 10-byte ASCII payload, MTU 25. -/
def d_w4 : IPHeader :=
  ⟨str2py "A", 1, 1, str2py "x", 0, str2py "00000010", false, str2py "aaaaaaaaaa"⟩

/-- The three wire fragments `fragment_ip_packet` produces for `d_w4` at MTU 25. -/
def frags_w4 : List PyStr :=
  [str2py "A,1,1,x,0,00000004,1,aaaa", str2py "A,1,1,x,4,00000004,1,aaaa",
   str2py "A,1,1,x,8,00000002,0,aa"]

theorem C4_amended_witness :
    (∀ f ∈ frags_w4, ((pyEncode f).length : Int) ≤ 25) ∧
    ∃ hs, parse_all frags_w4 = .ok hs ∧ (hs.map fun f => f.msg).flatten = d_w4.msg :=
  C4_amended_fragment_bound_and_reassembly d_w4 25 frags_w4 (by decide) (by decide)
    (by decide) (by decide) (by decide) (by decide) (by decide) (by decide)

/-- Concrete multi-byte payload whose split points all land on character
boundaries: payload is a two-byte character followed by two ASCII bytes. -/
def d_w9 : IPHeader :=
  ⟨str2py "A", 1, 1, str2py "x", 0, str2py "00000004", false, str2py "ñaa"⟩

/-- The two wire fragments `fragment_ip_packet` produces for `d_w9` at MTU 23. -/
def frags_w9 : List PyStr :=
  [str2py "A,1,1,x,0,00000002,1,ñ", str2py "A,1,1,x,2,00000002,0,aa"]

theorem C9_amended_witness :
    ∃ hs, parse_all frags_w9 = .ok hs ∧
      (hs.map fun f => pyEncode f.msg).flatten = pyEncode d_w9.msg :=
  C9_amended_byte_indexed_slicing d_w9 23 frags_w9 (by decide) (by decide)
    (by decide) (by decide) (by decide) (by decide) (by decide) (by decide)

theorem C10_amended_witness :
    ((header_bytes_at d_w4 (pyEncode d_w4.msg).length : Int) + 1 ≤ 25) ∧
    fragment_ip_packet d_w4.to_string 25 ≠ .nonterm :=
  ⟨by decide, C10_amended_termination d_w4 25 (by decide) (by decide) (by decide)
    (by decide) (by decide) (by decide)⟩

/-! ## Sorting lemmas -/

theorem insert_by_offset_mem {x y : IPHeader} {l : List IPHeader} :
    x ∈ insert_by_offset y l ↔ x = y ∨ x ∈ l := by
  induction l with
  | nil => simp [insert_by_offset]
  | cons z zs ih =>
    unfold insert_by_offset
    split
    · simp only [List.mem_cons, ih]
      tauto
    · simp [List.mem_cons]

theorem insert_by_offset_length (y : IPHeader) (l : List IPHeader) :
    (insert_by_offset y l).length = l.length + 1 := by
  induction l with
  | nil => rfl
  | cons z zs ih =>
    unfold insert_by_offset
    split
    · simp [ih]
    · simp

theorem sortByOffset_mem {x : IPHeader} {l : List IPHeader} :
    x ∈ sortByOffset l ↔ x ∈ l := by
  suffices h : ∀ (l acc : List IPHeader),
      x ∈ l.foldl (fun acc y => insert_by_offset y acc) acc ↔ x ∈ acc ∨ x ∈ l by
    unfold sortByOffset
    rw [h l []]
    simp
  intro l
  induction l with
  | nil => intro acc; simp
  | cons y ys ih =>
    intro acc
    simp only [List.foldl_cons, ih, insert_by_offset_mem, List.mem_cons]
    tauto

theorem sortByOffset_length (l : List IPHeader) :
    (sortByOffset l).length = l.length := by
  suffices h : ∀ (l acc : List IPHeader),
      (l.foldl (fun acc y => insert_by_offset y acc) acc).length = acc.length + l.length by
    unfold sortByOffset
    rw [h l []]
    simp
  intro l
  induction l with
  | nil => intro acc; simp
  | cons y ys ih =>
    intro acc
    simp only [List.foldl_cons, ih, insert_by_offset_length, List.length_cons]
    omega

theorem insert_by_offset_at_end {x : IPHeader} {l : List IPHeader}
    (h : ∀ y ∈ l, y.offset ≤ x.offset) : insert_by_offset x l = l ++ [x] := by
  induction l with
  | nil => rfl
  | cons z zs ih =>
    unfold insert_by_offset
    rw [if_pos (h z (by simp))]
    rw [ih (fun y hy => h y (by simp [hy]))]
    rfl

theorem sortByOffset_of_pairwise {l : List IPHeader}
    (h : l.Pairwise (fun a b => a.offset ≤ b.offset)) : sortByOffset l = l := by
  suffices hgen : ∀ (l acc : List IPHeader),
      (∀ a ∈ acc, ∀ b ∈ l, a.offset ≤ b.offset) →
      l.Pairwise (fun a b => a.offset ≤ b.offset) →
      l.foldl (fun acc y => insert_by_offset y acc) acc = acc ++ l by
    unfold sortByOffset
    rw [hgen l [] (by simp) h]
    simp
  intro l
  induction l with
  | nil => intro acc _ _; simp
  | cons y ys ih =>
    intro acc hcross hpair
    simp only [List.foldl_cons]
    rw [insert_by_offset_at_end (fun a ha => hcross a ha y (by simp))]
    rw [ih (acc ++ [y]) ?cross (List.Pairwise.of_cons hpair)]
    · simp
    · intro a ha b hb
      rcases List.mem_append.mp ha with ha | ha
      · exact hcross a ha b (by simp [hb])
      · rcases List.mem_singleton.mp ha with rfl
        exact (List.pairwise_cons.mp hpair).1 b hb

theorem chain_ge {o : Int} {l : List IPHeader} (h : offsets_sizes_chain o l) :
    ∀ f ∈ l, o ≤ f.offset := by
  induction l generalizing o with
  | nil => simp
  | cons g gs ih =>
    obtain ⟨hg, hrest⟩ := h
    intro f hf
    rcases List.mem_cons.mp hf with rfl | hf
    · omega
    · have := ih hrest f hf
      omega

theorem chain_pairwise {o : Int} {l : List IPHeader} (h : offsets_sizes_chain o l) :
    l.Pairwise (fun a b => a.offset ≤ b.offset) := by
  induction l generalizing o with
  | nil => exact List.Pairwise.nil
  | cons g gs ih =>
    obtain ⟨hg, hrest⟩ := h
    refine List.pairwise_cons.mpr ⟨?_, ih hrest⟩
    intro b hb
    have := chain_ge hrest b hb
    omega

/-! ## Reassembly loop lemmas -/

theorem reasm_loop_complete : ∀ (rest : List IPHeader) (curr : IPHeader) (total : PyStr),
    offsets_sizes_chain curr.offset (curr :: rest) →
    (∀ f ∈ curr :: rest, py_int_of_string f.size = some ((pyEncode f.msg).length : Int)) →
    reasm_loop curr rest total = .ok (true, total ++ (rest.map (fun f => f.msg)).flatten) := by
  intro rest
  induction rest with
  | nil =>
    intro curr total _ _
    simp [reasm_loop]
  | cons next rest' ih =>
    intro curr total hchain hsizes
    obtain ⟨hco, hnext, hrest⟩ : curr.offset = curr.offset ∧
        next.offset = curr.offset + ((pyEncode curr.msg).length : Int) ∧
        offsets_sizes_chain (curr.offset + ((pyEncode curr.msg).length : Int) +
          ((pyEncode next.msg).length : Int)) rest' := by
      obtain ⟨h1, h2, h3⟩ := hchain
      exact ⟨h1, h2, h3⟩
    simp only [reasm_loop, hsizes curr (by simp)]
    rw [if_neg (by omega)]
    have hchain' : offsets_sizes_chain next.offset (next :: rest') := by
      refine ⟨rfl, ?_⟩
      rw [hnext]
      exact hrest
    rw [ih next (total ++ next.msg) hchain' (fun f hf => hsizes f (by
      rcases List.mem_cons.mp hf with rfl | hf
      · simp
      · simp [hf]))]
    simp [List.append_assoc]

theorem set_last_ne_nil {l : List IPHeader} (h : l ≠ []) :
    set_last_flag_false l ≠ [] := by
  cases l with
  | nil => exact absurd rfl h
  | cons f fs => cases fs <;> simp [set_last_flag_false]

theorem set_last_getLastD_flag : ∀ (l : List IPHeader) (f0 : IPHeader)
    (rest : List IPHeader), set_last_flag_false l = f0 :: rest →
    (rest.getLastD f0).flag = false := by
  intro l
  induction l with
  | nil => intro f0 rest h; simp [set_last_flag_false] at h
  | cons f fs ih =>
    cases fs with
    | nil =>
      intro f0 rest h
      simp only [set_last_flag_false] at h
      cases h
      rfl
    | cons g gs =>
      intro f0 rest h
      simp only [set_last_flag_false] at h
      cases h
      cases hsl : set_last_flag_false (g :: gs) with
      | nil => exact absurd hsl (set_last_ne_nil (by simp))
      | cons f1 rest1 =>
        rw [List.getLastD_cons]
        exact ih f1 rest1 hsl

theorem parse_all_ne_nil {l : List PyStr} {hs : List IPHeader}
    (hne : l ≠ []) (h : parse_all l = .ok hs) : hs ≠ [] := by
  cases l with
  | nil => exact absurd rfl hne
  | cons s rest =>
    simp only [parse_all] at h
    cases hp : parse_ip_header s with
    | error e => rw [hp] at h; exact absurd h (by simp)
    | ok hd =>
      rw [hp] at h
      cases hr : parse_all rest with
      | error e => rw [hr] at h; exact absurd h (by simp)
      | ok tl =>
        rw [hr] at h
        cases h
        simp

/-! ## The completeness rules of section 4.3, transcribed from the spec -/

/-- Spec-side predicate (not from the code): every consecutive pair `(a, b)`
of the list satisfies `a.offset + int(a.size) == b.offset`, `int` failing on
a non-numeric size. -/
def size_chain_b : IPHeader → List IPHeader → Bool
  | _, [] => true
  | a, b :: rest =>
    match py_int_of_string a.size with
    | none => false
    | some sz => decide (a.offset + sz = b.offset) && size_chain_b b rest

/-- Spec-side predicate (not from the code): the three completeness rules of
section 4.3 on an offset-sorted fragment list — first offset `0`, consecutive
offsets chain through the sizes, last fragment's flag clear. -/
def complete_conditions : List IPHeader → Bool
  | [] => false
  | first :: rest =>
    decide (first.offset = 0) && size_chain_b first rest &&
      !(rest.getLastD first).flag

theorem reasm_loop_flag : ∀ (rest : List IPHeader) (curr : IPHeader)
    (total : PyStr),
    (∀ f ∈ curr :: rest, (py_int_of_string f.size).isSome) →
    ∃ t, reasm_loop curr rest total = .ok (size_chain_b curr rest, t) := by
  intro rest
  induction rest with
  | nil =>
    intro curr total _
    exact ⟨total, rfl⟩
  | cons next rest' ih =>
    intro curr total hsz
    obtain ⟨sz, hsz0⟩ := Option.isSome_iff_exists.mp (hsz curr (by simp))
    simp only [reasm_loop, size_chain_b, hsz0]
    by_cases he : curr.offset + sz = next.offset
    · rw [if_neg (not_not_intro he), decide_eq_true he, Bool.true_and]
      exact ih next (total ++ next.msg) (fun f hf => hsz f (by
        rcases List.mem_cons.mp hf with rfl | hf
        · simp
        · simp [hf]))
    · rw [if_pos he, decide_eq_false he, Bool.false_and]
      exact ⟨total ++ next.msg, rfl⟩

/-- C5 amended. The fragment-reassemble identity holds for a complete
datagram (offset `0`, flag clear) with comma-free address, id, size and
payload fields, a payload under `10^8` bytes of encodable code points,
conditioned on `fragment_ip_packet(encode(d), M)` returning a list at all
(the C10 counterexample shows `M ≥ minimum_header_bytes(d)+1` does not
guarantee that, and the C9 counterexample shows it can raise instead):
`reassemble_ip_packet` then returns a wire datagram that parses back to `d`
in address, port, ttl, id and payload, with offset `0`, flag `false` and
size the 8-digit byte length of the payload. The original claim fails for
comma payloads (see the counterexample) and for the termination range. -/
theorem C5_amended_fragment_reassemble_identity (d : IPHeader) (M : Int)
    (l : List PyStr)
    (hip : 44 ∉ d.ip_address) (hid : 44 ∉ d.id) (hsize44 : 44 ∉ d.size)
    (hmsg44 : 44 ∉ d.msg) (hoff0 : d.offset = 0) (hflag : d.flag = false)
    (hsmall : (pyEncode d.msg).length < 10 ^ 8)
    (hvalid : ∀ c ∈ d.msg, validChar c)
    (hok : fragment_ip_packet d.to_string M = .ok l) :
    ∃ w, reassemble_ip_packet l = .ok (some w) ∧
      parse_ip_header w = .ok ⟨d.ip_address, d.port, d.ttl, d.id, 0,
        generate_ip_header_size (pyEncode d.msg).length, false, d.msg⟩ := by
  have hparse : parse_ip_header d.to_string = .ok d :=
    parse_to_string_roundtrip d hip hid hsize44 hmsg44
  rcases fragment_ok_structure d M l hip hid hsize44 hmsg44
      (le_of_eq hoff0.symm) hsmall hok with
    ⟨rfl, hfit⟩ | ⟨tail, hs, rfl, hflagcase, hflat, hchain, hmem⟩
  · have hpa : parse_all [d.to_string] = .ok [d] := by
      simp only [parse_all, hparse]
    have hsort : sortByOffset [d] = [d] := rfl
    refine ⟨IPHeader.to_string ⟨d.ip_address, d.port, d.ttl, d.id, 0,
      generate_ip_header_size (pyEncode d.msg).length, false, d.msg⟩, ?_,
      parse_to_string_roundtrip _ hip hid generate_size_no_comma hmsg44⟩
    simp only [reassemble_ip_packet, hpa, hsort]
    rw [if_pos hoff0]
    simp only [reasm_loop, hflag, hoff0]
    simp [hflag]
  · rcases hflagcase with ⟨hdf, _⟩ | ⟨_, hseq, htne⟩
    · rw [hdf] at hflag; cases hflag
    obtain ⟨hbound, hpa, hmsgs⟩ :=
      fragment_output_spec d M tail hs hip hid hmsg44 hvalid hflat hmem
        (Or.inr hseq)
    have hchain_hs : offsets_sizes_chain d.offset hs := by
      rw [hseq]; exact (set_last_chain d.offset tail).mpr hchain
    have hsorted : sortByOffset hs = hs :=
      sortByOffset_of_pairwise (chain_pairwise hchain_hs)
    have hhsne : hs ≠ [] := by rw [hseq]; exact set_last_ne_nil htne
    obtain ⟨first, rest, hfr⟩ := List.exists_cons_of_ne_nil hhsne
    subst hfr
    have hfirstmem : first ∈ set_last_flag_false tail := by
      rw [← hseq]; simp
    obtain ⟨f1, hf1, e1, e2, e3, e4, e5, e6, e7⟩ :=
      set_last_mem tail first hfirstmem
    obtain ⟨g1, g2, g3, g4, g5, g6, g7, g8, g9, g10⟩ := hmem f1 hf1
    have hf0 : first.offset = d.offset := hchain_hs.1
    have hsizes : ∀ f ∈ first :: rest,
        py_int_of_string f.size = some ((pyEncode f.msg).length : Int) := by
      intro f hf
      have hfm : f ∈ set_last_flag_false tail := by rw [← hseq]; exact hf
      obtain ⟨f2, hf2, _, _, _, _, _, s6, s7⟩ := set_last_mem tail f hfm
      obtain ⟨_, _, _, _, _, _, _, m8, _, _⟩ := hmem f2 hf2
      rw [s6, m8, s7]
      exact py_int_generate_size _
    have hchain_first : offsets_sizes_chain first.offset (first :: rest) := by
      rw [hf0]; exact hchain_hs
    have hrl := reasm_loop_complete rest first first.msg hchain_first hsizes
    have hsc2 : first.msg ++ ((rest.map fun f => f.msg).flatten) = d.msg := by
      rw [← hmsgs]
      simp
    have hlast : (rest.getLastD first).flag = false :=
      set_last_getLastD_flag tail first rest hseq.symm
    have hip1 : first.ip_address = d.ip_address := e1.trans g1
    have hport1 : first.port = d.port := e2.trans g2
    have httl1 : first.ttl = d.ttl := e3.trans g3
    have hid1 : first.id = d.id := e4.trans g4
    refine ⟨IPHeader.to_string ⟨d.ip_address, d.port, d.ttl, d.id, 0,
      generate_ip_header_size (pyEncode d.msg).length, false, d.msg⟩, ?_,
      parse_to_string_roundtrip _ hip hid generate_size_no_comma hmsg44⟩
    simp only [reassemble_ip_packet, hpa, hsorted]
    rw [if_pos (hf0.trans hoff0)]
    simp only [hrl, hlast, Bool.not_false, Bool.true_and, if_true, hsc2,
      hip1, hport1, httl1, hid1, hf0, hoff0]

/-- C6. Reassembler completeness iff: for every non-empty collection of
wire-encoded fragments (each fragment parses — `parse_ip_header` succeeds on
it — and carries a numeric size field, as the rule `a.offset + int(a.size)
== b.offset` itself presupposes), `reassemble_ip_packet` returns a non-None
wire datagram if and only if, after sorting by offset ascending, the first
fragment's offset is `0`, every consecutive pair chains offset-plus-size to
the next offset, and the last fragment's flag is clear. The claim's final
clause — an incomplete collection is returned unmodified — holds by
construction in this embedding, where `reassemble_ip_packet` is a pure
function of the fragment list. -/
theorem C6_reassembler_completeness_iff (l : List PyStr) (hs : List IPHeader)
    (hne : l ≠ []) (hparse : parse_all l = .ok hs)
    (hsz : ∀ h ∈ hs, (py_int_of_string h.size).isSome) :
    (∃ w, reassemble_ip_packet l = .ok (some w)) ↔
      complete_conditions (sortByOffset hs) = true := by
  have hhsne : hs ≠ [] := parse_all_ne_nil hne hparse
  cases hfr : sortByOffset hs with
  | nil =>
    exfalso
    have hl := sortByOffset_length hs
    rw [hfr] at hl
    exact hhsne (List.eq_nil_of_length_eq_zero hl.symm)
  | cons first rest =>
    have hsz2 : ∀ f ∈ first :: rest, (py_int_of_string f.size).isSome := by
      intro f hf
      exact hsz f (sortByOffset_mem.mp (by rw [hfr]; exact hf))
    simp only [reassemble_ip_packet, hparse, hfr, complete_conditions]
    by_cases h0 : first.offset = 0
    · simp only [if_pos h0]
      obtain ⟨t, hrl⟩ := reasm_loop_flag rest first first.msg hsz2
      simp only [hrl, decide_eq_true h0, Bool.true_and]
      by_cases hb : (size_chain_b first rest && !(rest.getLastD first).flag) = true
      · simp only [if_pos hb]
        constructor
        · intro _
          exact hb
        · intro _
          exact ⟨_, rfl⟩
      · simp only [if_neg hb]
        constructor
        · rintro ⟨w, hw⟩
          exact absurd hw (by simp)
        · intro hcc
          exact absurd hcc hb
    · simp only [if_neg h0]
      simp only [decide_eq_false h0, Bool.false_and]
      constructor
      · rintro ⟨w, hw⟩
        exact absurd hw (by simp)
      · intro hcc
        exact absurd hcc (by decide)

/-- Concrete complete datagram for the identity witness: 6-byte ASCII
payload, offset 0, flag clear, fragmented at MTU 25. -/
def d_w5 : IPHeader :=
  ⟨str2py "B", 2, 3, str2py "y", 0, str2py "00000006", false, str2py "bbbbbb"⟩

/-- The two wire fragments `fragment_ip_packet` produces for `d_w5` at MTU 25. -/
def frags_w5 : List PyStr :=
  [str2py "B,2,3,y,0,00000004,1,bbbb", str2py "B,2,3,y,4,00000002,0,bb"]

theorem C5_amended_witness :
    fragment_ip_packet d_w5.to_string 25 = .ok frags_w5 ∧
    ∃ w, reassemble_ip_packet frags_w5 = .ok (some w) ∧
      parse_ip_header w = .ok ⟨d_w5.ip_address, d_w5.port, d_w5.ttl, d_w5.id, 0,
        generate_ip_header_size (pyEncode d_w5.msg).length, false, d_w5.msg⟩ :=
  ⟨by decide, C5_amended_fragment_reassemble_identity d_w5 25 frags_w5
    (by decide) (by decide) (by decide) (by decide) (by decide) (by decide)
    (by decide) (by decide) (by decide)⟩

/-- Concrete complete fragment pair for the completeness-iff witness. -/
def frags_w6 : List PyStr :=
  [str2py "A,1,1,x,0,00000002,1,ab", str2py "A,1,1,x,2,00000001,0,c"]

/-- The headers `parse_ip_header` yields for `frags_w6`, in order. -/
def hs_w6 : List IPHeader :=
  [⟨str2py "A", 1, 1, str2py "x", 0, str2py "00000002", true, str2py "ab"⟩,
   ⟨str2py "A", 1, 1, str2py "x", 2, str2py "00000001", false, str2py "c"⟩]

theorem C6_reassembler_completeness_iff_witness :
    parse_all frags_w6 = .ok hs_w6 ∧
    complete_conditions (sortByOffset hs_w6) = true ∧
    ∃ w, reassemble_ip_packet frags_w6 = .ok (some w) :=
  ⟨by decide, by decide,
   (C6_reassembler_completeness_iff frags_w6 hs_w6 (by decide) (by decide)
     (by decide)).mpr (by decide)⟩
